import Mathlib

/-!
Verification of the BFS route-search engine of this repository.

The engine searched here is the one implemented in
`src/services/pathfinding_service.py` (class `PathfindingService`), with its
helpers in `src/utils/path_calculator.py` (class `PathCalculator`),
`src/utils/constraint_validator.py` and
`src/shared/constraints/time_constraint.py`, and its standalone twin in
`osm_bfs.py` (class `AddisAbabaBFS`, identical algorithms).

The embedding below mirrors those Python functions over a finite graph value:
nodes are natural numbers, the adjacency structure, edge lengths and node
coordinates are finite association lists (the NetworkX graph is finite and
read-only for the duration of a search).  Location resolution
(`location_model.get_nearest_node`) is an external collaborator: the functions
here receive already-resolved node ids, exactly as the algorithm bodies do
after their resolution prologue.  Python's unbounded `while` loops are
expressed as fuel recursion; the fuel `FUEL g = |nodes| + 1` is provably
sufficient (each loop iteration pops one queue entry and every node is
enqueued at most once), and the fuel-exhaustion branch returns a recognisably
junk value that the sufficiency lemmas rule out.

Floating point arithmetic is modelled by exact reals: recorded edge lengths
and coordinates are rationals (every float literal is one), and distance
computations land in `ℝ` because the coordinate fallback takes a square root.
-/

set_option maxHeartbeats 1600000

namespace BFSRepo

/-- A finite road-network graph as the engine sees it: node set, adjacency
lists (`graph_model.get_neighbors` / `G.neighbors`), per-edge recorded lengths
(the `'length'` attribute of `get_edge_data`), and per-node latitude/longitude
(`nodes[n]['y']`, `nodes[n]['x']`).  Missing entries of the association lists
model missing keys / attributes in the Python graph object. -/
structure Graph where
  nodes : List Nat
  adjList : List (Nat × List Nat)
  edges : List (Nat × Nat × ℚ)
  coordsList : List (Nat × ℚ × ℚ)

/-- `graph_model.get_neighbors(u)` / `G.neighbors(u)`: the stored adjacency
list of `u`, empty when `u` is unknown. -/
def Graph.adj (g : Graph) (u : Nat) : List Nat :=
  (g.adjList.lookup u).getD []

/-- The `'length'` attribute of `graph.get_edge_data(u, v)[0]`, when the edge
exists and carries one. -/
def Graph.edgeLen (g : Graph) (u v : Nat) : Option ℚ :=
  (g.edges.find? (fun e => e.1 == u && e.2.1 == v)).map (fun e => e.2.2)

/-- The `(lat, lon) = (nodes[u]['y'], nodes[u]['x'])` coordinate pair of a
node, when the node data carries one. -/
def Graph.coords (g : Graph) (u : Nat) : Option (ℚ × ℚ) :=
  g.coordsList.lookup u

/-- Well-formedness of the graph value: distinct node ids, duplicate-free
adjacency lists whose members are nodes of the graph.  NetworkX guarantees
all of this for the graphs the engine receives. -/
def WF (g : Graph) : Prop :=
  g.nodes.Nodup ∧ ∀ e ∈ g.adjList, e.2.Nodup ∧ ∀ v ∈ e.2, v ∈ g.nodes

instance (g : Graph) : Decidable (WF g) := by
  unfold WF; infer_instance

theorem lookup_mem {α β : Type} [BEq α] [LawfulBEq α] {l : List (α × β)} {k : α} {v : β}
    (h : l.lookup k = some v) : (k, v) ∈ l := by
  induction l with
  | nil => simp at h
  | cons e rest ih =>
    obtain ⟨k', v'⟩ := e
    rw [List.lookup_cons] at h
    by_cases hk : k == k'
    · simp only [hk] at h
      have hk' : k = k' := by simpa using hk
      cases h
      subst hk'
      exact List.mem_cons_self _ _
    · simp only [Bool.not_eq_true] at hk
      rw [hk] at h
      exact List.mem_cons_of_mem _ (ih h)

theorem WF.adj_nodup {g : Graph} (hwf : WF g) (u : Nat) : (g.adj u).Nodup := by
  unfold Graph.adj
  cases h : g.adjList.lookup u with
  | none => simp
  | some l =>
    have := hwf.2 (u, l) (lookup_mem h)
    simpa using this.1

theorem WF.adj_mem_nodes {g : Graph} (hwf : WF g) {u v : Nat} (h : v ∈ g.adj u) :
    v ∈ g.nodes := by
  unfold Graph.adj at h
  cases hl : g.adjList.lookup u with
  | none => rw [hl] at h; simp at h
  | some l =>
    rw [hl] at h
    exact (hwf.2 (u, l) (lookup_mem hl)).2 v (by simpa using h)

/-! ## PathCalculator (`src/utils/path_calculator.py`) -/

/-- The contribution of one consecutive pair of `calculate_path_distance`:
the recorded edge length when the edge data carries one, otherwise the flat
"Euclidean" approximation `sqrt((lat2-lat1)^2 + (lon2-lon1)^2) * 111000` from
the node coordinates, and `0` (the pair is skipped, `except: continue`) when
coordinate data is missing as well. -/
noncomputable def pairDistance (g : Graph) (u v : Nat) : ℝ :=
  match g.edgeLen u v with
  | some w => (w : ℝ)
  | none =>
    match g.coords u, g.coords v with
    | some c1, some c2 =>
        Real.sqrt (((c2.1 : ℝ) - (c1.1 : ℝ)) ^ 2 + ((c2.2 : ℝ) - (c1.2 : ℝ)) ^ 2) * 111000
    | _, _ => 0

/-- `PathCalculator.calculate_path_distance(graph, path)` /
`AddisAbabaBFS._calculate_path_distance`: the sum of `pairDistance` over the
consecutive pairs of the path. -/
noncomputable def calculate_path_distance (g : Graph) : List Nat → ℝ
  | u :: v :: rest => pairDistance g u v + calculate_path_distance g (v :: rest)
  | _ => 0

/-- `PathCalculator.paths_are_similar(path1, path2, threshold)`: false when
`path2` is empty, otherwise the node-set overlap
`|set(p1) ∩ set(p2)| / max(|set(p1)|, |set(p2)|)` strictly exceeds the
threshold. -/
def paths_are_similar (p1 p2 : List Nat) (threshold : ℚ) : Bool :=
  if p2.isEmpty then false
  else
    let common := (p1.dedup.filter (fun x => x ∈ p2)).length
    let m := max p1.dedup.length p2.dedup.length
    decide (threshold < (common : ℚ) / (m : ℚ))

/-- `PathfindingService._paths_are_same` (also
`AddisAbabaBFS._paths_are_same`): `paths_are_similar` at the default 0.8
threshold, guarded on a non-empty second path. -/
def paths_are_same (p1 p2 : List Nat) : Bool :=
  if p2.isEmpty then false else paths_are_similar p1 p2 (8 / 10)

/-! ## Constraint helpers -/

/-- `ConstraintValidator.validate_node_limit(nodes_processed, max_nodes)`:
returns `true` ("limit exceeded") exactly when a limit is supplied, is truthy
(Python `if max_nodes` — a zero limit disables the check), and the counter
strictly exceeds it.  The human-readable message is elided. -/
def validate_node_limit (nodes_processed : Nat) (mn : Option Nat) : Bool :=
  match mn with
  | some m => decide (0 < m) && decide (m < nodes_processed)
  | none => false

/-- `TimeConstraint` (`src/shared/constraints/time_constraint.py`): a maximum
travel time, an injected path-cost calculator, and an assumed average speed. -/
structure TimeConstraint where
  max_time_seconds : ℝ
  path_calculator : Graph → List Nat → ℝ
  average_speed_m_per_s : ℝ

/-- `TimeConstraint.validate(path, graph)`: degenerate speed (≤ 0) always
passes; otherwise the estimated time `distance / speed` must not exceed the
maximum.  The message text (minutes, one decimal) is elided; only the
validity bit is modelled. -/
noncomputable def TimeConstraint.validate (c : TimeConstraint) (path : List Nat)
    (g : Graph) : Bool :=
  if c.average_speed_m_per_s ≤ 0 then true
  else
    let distance_m := c.path_calculator g path
    let estimated_time_s := distance_m / c.average_speed_m_per_s
    if c.max_time_seconds < estimated_time_s then false else true

/-! ## The shortest-path enumerator
(`_build_parent_tree`, `_backtrack_paths`, `_stream_backtrack`,
`find_all_shortest_paths_optimized`, `find_all_shortest_paths_streaming`). -/

/-- Sufficient fuel for every loop of the engine on graph `g`: each node is
enqueued (hence popped, hence chained through a parent map) at most once. -/
def FUEL (g : Graph) : Nat := g.nodes.length + 1

/-- The inner `for neighbor in get_neighbors(current)` loop of
`_build_parent_tree`: first-visit neighbors are recorded with distance
`distance[current] + 1` and a singleton parent list, already-visited
neighbors at that distance gain `current` as an extra parent. -/
def buildStep (g : Graph) (current : Nat) :
    List Nat → List Nat → List Nat → (Nat → Option Nat) → (Nat → Option (List Nat)) →
    List Nat × List Nat × (Nat → Option Nat) × (Nat → Option (List Nat))
  | [], q, vis, dist, par => (q, vis, dist, par)
  | nb :: rest, q, vis, dist, par =>
    if nb ∈ vis then
      if dist nb = some ((dist current).getD 0 + 1) then
        buildStep g current rest q vis dist
          (fun x => if x = nb then some ((par nb).getD [] ++ [current]) else par x)
      else buildStep g current rest q vis dist par
    else
      buildStep g current rest (q ++ [nb]) (vis ++ [nb])
        (fun x => if x = nb then some ((dist current).getD 0 + 1) else dist x)
        (fun x => if x = nb then some [current] else par x)

/-- The `while queue` loop of `_build_parent_tree`: pop, stop as soon as the
goal itself is popped, otherwise expand the popped node.  Python dictionary
lookups that cannot fail in context (`distance[current]`) are modelled with
`getD`. -/
def buildLoop (g : Graph) (goalNode : Nat) :
    Nat → List Nat → List Nat → (Nat → Option Nat) → (Nat → Option (List Nat)) →
    (Nat → Option Nat) × (Nat → Option (List Nat))
  | _, [], _, dist, par => (dist, par)
  | 0, _ :: _, _, dist, par => (dist, par)
  | fuel + 1, current :: qrest, vis, dist, par =>
    if current = goalNode then (dist, par)
    else
      match buildStep g current (g.adj current) qrest vis dist par with
      | (q', vis', dist', par') => buildLoop g goalNode fuel q' vis' dist' par'

/-- `PathfindingService._build_parent_tree(start_node, goal_node)`: layered
BFS from the start recording hop distances and every equal-distance
predecessor. -/
def build_parent_tree (g : Graph) (startNode goalNode : Nat) :
    (Nat → Option Nat) × (Nat → Option (List Nat)) :=
  buildLoop g goalNode (FUEL g) [startNode] [startNode]
    (fun x => if x = startNode then some 0 else none)
    (fun x => if x = startNode then some [] else none)

/-- `PathfindingService._backtrack_paths`: recursive backtrack from the goal
through the recorded parents, reversing each completed chain, stopping as
soon as `max_paths` paths are accumulated; the `for parent in parents[node]`
loop with its early `break` is the fold.  The recursion depth is fuelled;
parent chains strictly descend in recorded distance, so `FUEL g` suffices. -/
def backtrackFuel (par : Nat → Option (List Nat)) (startNode maxPaths : Nat) :
    Nat → Nat → List Nat → List (List Nat) → List (List Nat)
  | 0, _, _, acc => acc
  | fuel + 1, node, cp, acc =>
    if maxPaths ≤ acc.length then acc
    else if node = startNode then acc ++ [cp.reverse]
    else
      match par node with
      | none => acc
      | some ps =>
        ps.foldl
          (fun acc2 p =>
            if maxPaths ≤ acc2.length then acc2
            else backtrackFuel par startNode maxPaths fuel p (cp ++ [p]) acc2)
          acc

/-- `PathfindingService._stream_backtrack`: the generator form of the
backtrack; its yields, in order, as a list — `yield from` over every parent.
No `max_paths` cap appears here; the cap lives in the consuming wrapper. -/
def streamBacktrack (par : Nat → Option (List Nat)) (startNode : Nat) :
    Nat → Nat → List Nat → List (List Nat)
  | 0, _, _ => []
  | fuel + 1, node, cp =>
    if node = startNode then [cp.reverse]
    else
      match par node with
      | none => []
      | some ps => ps.flatMap fun p => streamBacktrack par startNode fuel p (cp ++ [p])

/-! ## `PathfindingService.bfs_shortest_path` (also
`AddisAbabaBFS.bfs_shortest_path`). -/

/-- The body of `_reconstruct_path`'s `while node is not None` loop:
`path.append(node); node = parent[node]`, producing the goal-to-start order.
A missing dictionary entry (impossible in context) stops the walk. -/
def reconRev (par : Nat → Option (Option Nat)) : Nat → Nat → List Nat → List Nat
  | 0, _, acc => acc
  | fuel + 1, n, acc =>
    match par n with
    | some (some p) => reconRev par fuel p (acc ++ [n])
    | _ => acc ++ [n]

/-- `PathfindingService._reconstruct_path(parent, goal_node)` (inlined in
`osm_bfs.py`): walk the parent dictionary from the goal and reverse. -/
def reconstructPath (fuel : Nat) (par : Nat → Option (Option Nat)) (n : Nat) : List Nat :=
  (reconRev par fuel n []).reverse

/-- The early-return outcomes and the carried state of one iteration of the
BFS `while queue` loop: either a returned `(primary, visited, alternative)`
triple or the updated `(queue, visited, parent, shortest_length,
alternative_path)` state. -/
abbrev BfsResult := Option (List Nat) × List Nat × Option (List Nat)

/-- The `for neighbor in get_neighbors(current)` loop of
`bfs_shortest_path`, one neighbor at a time.  Mirrors the Python control
flow exactly: unvisited neighbors are visited, parented and enqueued; on
first goal discovery the path is reconstructed, `shortest_length` is set and
the distance limit (Python-truthy: a zero limit disables it) is evaluated
once, failing closed; a later goal discovery (dead code: the goal is already
visited) may record one alternative path and `continue`; the trailing
`if shortest_length is not None and not find_alternative: return path`.  -/
noncomputable def bfsStep (g : Graph) (goalNode : Nat) (md : Option ℚ) (findAlt : Bool)
    (rf : Nat) (current : Nat) :
    List Nat → List Nat → List Nat → (Nat → Option (Option Nat)) → Option Nat →
    Option (List Nat) →
    Sum BfsResult (List Nat × List Nat × (Nat → Option (Option Nat)) × Option Nat × Option (List Nat))
  | [], q, vis, par, sl, alt => Sum.inr (q, vis, par, sl, alt)
  | nb :: rest, q, vis, par, sl, alt =>
    if nb ∈ vis then bfsStep g goalNode md findAlt rf current rest q vis par sl alt
    else
      let vis' := vis ++ [nb]
      let par' := fun x => if x = nb then some (some current) else par x
      let q' := q ++ [nb]
      if nb = goalNode then
        let path := reconstructPath rf par' nb
        match sl with
        | none =>
          let abortDist : Bool :=
            match md with
            | some limit =>
              decide (limit ≠ 0) && decide ((limit : ℝ) < calculate_path_distance g path)
            | none => false
          if abortDist then Sum.inl (none, vis', none)
          else if ¬ findAlt then Sum.inl (some path, vis', none)
          else bfsStep g goalNode md findAlt rf current rest q' vis' par' (some path.length) alt
        | some len =>
          if findAlt ∧ alt = none ∧ path.length = len then
            if ¬ paths_are_same path (alt.getD []) then
              bfsStep g goalNode md findAlt rf current rest q' vis' par' (some len) (some path)
            else if ¬ findAlt then Sum.inl (some path, vis', none)
            else bfsStep g goalNode md findAlt rf current rest q' vis' par' (some len) alt
          else if ¬ findAlt then Sum.inl (some path, vis', none)
          else bfsStep g goalNode md findAlt rf current rest q' vis' par' (some len) alt
      else bfsStep g goalNode md findAlt rf current rest q' vis' par' sl alt

/-- The `while queue` loop of `bfs_shortest_path`: pop, count, check the node
limit (Python-truthy), process the popped node's neighbors, and on queue
exhaustion reconstruct the primary path if one was found.  The returned
`Nat` is the final `nodes_processed` counter; `none` is the fuel-exhaustion
artifact, unreachable at `FUEL g`. -/
noncomputable def bfsLoop (g : Graph) (goalNode : Nat) (mn : Option Nat) (md : Option ℚ)
    (findAlt : Bool) (rf : Nat) :
    Nat → List Nat → List Nat → (Nat → Option (Option Nat)) → Nat → Option Nat →
    Option (List Nat) → Option (BfsResult × Nat)
  | _, [], vis, par, processed, sl, alt =>
    some
      ((match sl with
        | some _ => (some (reconstructPath rf par goalNode), vis, alt)
        | none => (none, vis, none)), processed)
  | 0, _ :: _, _, _, _, _, _ => none
  | fuel + 1, current :: qrest, vis, par, processed, sl, alt =>
    if validate_node_limit (processed + 1) mn then some ((none, vis, none), processed + 1)
    else
      match bfsStep g goalNode md findAlt rf current (g.adj current) qrest vis par sl alt with
      | Sum.inl r => some (r, processed + 1)
      | Sum.inr (q', vis', par', sl', alt') =>
        bfsLoop g goalNode mn md findAlt rf fuel q' vis' par' (processed + 1) sl' alt'

/-- `bfs_shortest_path(start, goal, max_nodes, max_distance,
find_alternative)` after location resolution, instrumented with the final
`nodes_processed` counter: the same-start/goal guard, then the BFS loop from
`queue = [start]`, `visited = {start}`, `parent = {start: None}`. -/
noncomputable def bfsRun (g : Graph) (startNode goalNode : Nat) (mn : Option Nat)
    (md : Option ℚ) (findAlt : Bool) : Option (BfsResult × Nat) :=
  if startNode = goalNode then some ((some [startNode], [startNode], none), 0)
  else
    bfsLoop g goalNode mn md findAlt (FUEL g) (FUEL g) [startNode] [startNode]
      (fun x => if x = startNode then some none else none) 0 none none

/-- `PathfindingService.bfs_shortest_path` /
`AddisAbabaBFS.bfs_shortest_path`: the `(primary_path, visited,
alternative_path)` triple. -/
noncomputable def bfs_shortest_path (g : Graph) (startNode goalNode : Nat) (mn : Option Nat)
    (md : Option ℚ) (findAlt : Bool) : BfsResult :=
  ((bfsRun g startNode goalNode mn md findAlt).map Prod.fst).getD (none, [], none)

/-- `PathfindingService.find_all_shortest_paths_optimized(start, goal,
max_paths)` after location resolution: same-node guard, parent-tree
construction, reachability test, bounded backtrack. -/
def find_all_shortest_paths_optimized (g : Graph) (startNode goalNode maxPaths : Nat) :
    List (List Nat) :=
  if startNode = goalNode then [[startNode]]
  else
    let dp := build_parent_tree g startNode goalNode
    match dp.1 goalNode with
    | none => []
    | some _ => backtrackFuel dp.2 startNode maxPaths (FUEL g) goalNode [goalNode] []

/-- `PathfindingService.find_all_shortest_paths_streaming(start, goal,
max_paths)` after location resolution, with the generator's yields collected
in order: the consuming loop `if path_count >= max_paths: break` takes the
first `max_paths` yields. -/
def find_all_shortest_paths_streaming (g : Graph) (startNode goalNode maxPaths : Nat) :
    List (List Nat) :=
  if startNode = goalNode then [[startNode]]
  else
    let dp := build_parent_tree g startNode goalNode
    match dp.1 goalNode with
    | none => []
    | some _ => (streamBacktrack dp.2 startNode (FUEL g) goalNode [goalNode]).take maxPaths

/-! ## Paths, reachability and hop distance (specification vocabulary) -/

/-- A valid path of the graph from `s` to `t`: non-empty, starts at `s`,
ends at `t`, and every consecutive pair is an adjacency edge. -/
def PathOk (g : Graph) (s t : Nat) (p : List Nat) : Prop :=
  p.head? = some s ∧ p.getLast? = some t ∧ List.Chain' (fun u v => v ∈ g.adj u) p

instance (g : Graph) (s t : Nat) (p : List Nat) : Decidable (PathOk g s t p) :=
  inferInstanceAs (Decidable (p.head? = some s ∧ p.getLast? = some t ∧
    List.Chain' (fun u v => v ∈ g.adj u) p))

/-- `t` is reachable from `s` in `g` along adjacency edges. -/
def Reachable (g : Graph) (s t : Nat) : Prop :=
  ∃ p, PathOk g s t p

/-- The hop count (number of edges) of the shortest valid path from `s` to
`t`; meaningful when `Reachable g s t`. -/
noncomputable def hopDist (g : Graph) (s t : Nat) : Nat :=
  sInf {k | ∃ p, PathOk g s t p ∧ p.length = k + 1}

theorem pathOk_single (g : Graph) (s : Nat) : PathOk g s s [s] := by
  refine ⟨rfl, rfl, ?_⟩
  simp

theorem pathOk_ne_nil {g : Graph} {s t : Nat} {p : List Nat} (h : PathOk g s t p) :
    p ≠ [] := by
  intro hn
  rw [hn] at h
  simpa using h.1

theorem pathOk_length_pos {g : Graph} {s t : Nat} {p : List Nat} (h : PathOk g s t p) :
    0 < p.length :=
  List.length_pos.2 (pathOk_ne_nil h)

theorem hopDist_set_nonempty {g : Graph} {s t : Nat} (h : Reachable g s t) :
    {k | ∃ p, PathOk g s t p ∧ p.length = k + 1}.Nonempty := by
  obtain ⟨p, hp⟩ := h
  exact ⟨p.length - 1, p, hp, by have := pathOk_length_pos hp; omega⟩

theorem hopDist_spec {g : Graph} {s t : Nat} (h : Reachable g s t) :
    ∃ p, PathOk g s t p ∧ p.length = hopDist g s t + 1 :=
  Nat.sInf_mem (hopDist_set_nonempty h)

theorem hopDist_le {g : Graph} {s t : Nat} {p : List Nat} (hp : PathOk g s t p) :
    hopDist g s t + 1 ≤ p.length := by
  have hpos := pathOk_length_pos hp
  have : p.length - 1 ∈ {k | ∃ q, PathOk g s t q ∧ q.length = k + 1} :=
    ⟨p, hp, by omega⟩
  have := Nat.sInf_le this
  unfold hopDist
  omega

theorem hopDist_self (g : Graph) (s : Nat) : hopDist g s s = 0 := by
  have h1 := hopDist_le (pathOk_single g s)
  simpa using h1

/-! ## Concrete graphs used as test inputs -/

/-- The spec's concrete scenario: the 3×3 unit grid, nodes `(r, c) ↦ 3r + c`,
4-directional edges (all of length 100 m, irrelevant to the hop-count
facts). -/
def grid3 : Graph :=
  { nodes := [0, 1, 2, 3, 4, 5, 6, 7, 8]
    adjList := [(0, [1, 3]), (1, [0, 2, 4]), (2, [1, 5]), (3, [0, 4, 6]),
      (4, [1, 3, 5, 7]), (5, [2, 4, 8]), (6, [3, 7]), (7, [4, 6, 8]), (8, [5, 7])]
    edges := []
    coordsList := [] }

/-- A single isolated node. -/
def oneNode : Graph :=
  { nodes := [0], adjList := [], edges := [], coordsList := [] }

/-- Two nodes joined by an edge of recorded length 100 m. -/
def twoNode : Graph :=
  { nodes := [0, 1], adjList := [(0, [1]), (1, [0])]
    edges := [(0, 1, 100), (1, 0, 100)], coordsList := [] }

/-- A three-node path `0 — 1 — 2`. -/
def lineG : Graph :=
  { nodes := [0, 1, 2], adjList := [(0, [1]), (1, [0, 2]), (2, [1])]
    edges := [], coordsList := [] }

/-- Two nodes with no recorded edge length and coordinates `(0°, 0°)` and
`(0°, 180°)` — the pair distance must come from the coordinate fallback. -/
def antipodal : Graph :=
  { nodes := [0, 1], adjList := [(0, [1]), (1, [0])]
    edges := [], coordsList := [(0, 0, 0), (1, 0, 180)] }

/-! ## Spec-side definitions used for refinement comparisons -/

/-- Modelled from the spec: the great-circle fallback §4.2 claims the path
calculator uses for a pair without a recorded edge length —
`2·R·asin(sqrt(sin²(Δφ/2) + cosφ1·cosφ2·sin²(Δλ/2)))` with
`R = 6 371 000 m`, coordinates in degrees (this formula does exist in the
repository, but only in the excluded recommendation service,
`app/utils/geo.py`). -/
noncomputable def specHaversine (lat1 lon1 lat2 lon2 : ℝ) : ℝ :=
  let r : ℝ := 6371000
  let ph1 := lat1 * Real.pi / 180
  let ph2 := lat2 * Real.pi / 180
  let dph := ph2 - ph1
  let dlm := (lon2 - lon1) * Real.pi / 180
  2 * r * Real.arcsin
    (Real.sqrt (Real.sin (dph / 2) ^ 2 + Real.cos ph1 * Real.cos ph2 * Real.sin (dlm / 2) ^ 2))

/-- Modelled from the spec (claim C7's reading of §4.2): the per-pair
contribution with the haversine great-circle fallback. -/
noncomputable def specPairDistanceHaversine (g : Graph) (u v : Nat) : ℝ :=
  match g.edgeLen u v with
  | some w => (w : ℝ)
  | none =>
    match g.coords u, g.coords v with
    | some c1, some c2 => specHaversine (c1.1 : ℝ) (c1.2 : ℝ) (c2.1 : ℝ) (c2.2 : ℝ)
    | _, _ => 0

/-- The per-pair contribution as the code actually computes it, restated from
the amended spec wording: recorded edge length when present, otherwise the
flat degree-space approximation `sqrt(Δlat² + Δlon²) · 111000`, otherwise
`0` (pair skipped). -/
noncomputable def specPairDistanceEuclid (g : Graph) (u v : Nat) : ℝ :=
  match g.edgeLen u v with
  | some w => (w : ℝ)
  | none =>
    match g.coords u, g.coords v with
    | some c1, some c2 =>
        Real.sqrt (((c2.1 : ℝ) - (c1.1 : ℝ)) ^ 2 + ((c2.2 : ℝ) - (c1.2 : ℝ)) ^ 2) * 111000
    | _, _ => 0

/-! ## Claim C8 — same start and goal -/

/-- Claim C8: when start and goal resolve to the same node, each of
`bfs_shortest_path`, `find_all_shortest_paths_optimized` and
`find_all_shortest_paths_streaming` returns exactly the one-node path
`[start_node]` (with visited set `{start_node}` and no alternative), its
calculated distance is zero, and no expansion happens (the processed-node
counter of the instrumented run stays 0). -/
theorem claim_C8 (g : Graph) (s : Nat) (mn : Option Nat) (md : Option ℚ) (fa : Bool)
    (k1 k2 : Nat) :
    bfs_shortest_path g s s mn md fa = (some [s], [s], none) ∧
      bfsRun g s s mn md fa = some ((some [s], [s], none), 0) ∧
      find_all_shortest_paths_optimized g s s k1 = [[s]] ∧
      find_all_shortest_paths_streaming g s s k2 = [[s]] ∧
      calculate_path_distance g [s] = 0 := by
  refine ⟨?_, ?_, ?_, ?_, ?_⟩ <;>
    simp [bfs_shortest_path, bfsRun, find_all_shortest_paths_optimized,
      find_all_shortest_paths_streaming, calculate_path_distance]

/-! ## Claim C9 — TimeConstraint.validate -/

/-- Claim C9: `TimeConstraint.validate` reports invalid exactly when the
average speed is positive and the calculator's path cost divided by the
speed strictly exceeds the maximum time; a degenerate speed (≤ 0) always
passes. -/
theorem claim_C9 (c : TimeConstraint) (path : List Nat) (g : Graph) :
    c.validate path g = false ↔
      0 < c.average_speed_m_per_s ∧
        c.max_time_seconds < c.path_calculator g path / c.average_speed_m_per_s := by
  unfold TimeConstraint.validate
  by_cases h1 : c.average_speed_m_per_s ≤ 0
  · rw [if_pos h1]
    simp only [Bool.true_eq_false, false_iff]
    rintro ⟨h2, -⟩; linarith
  · rw [if_neg h1]
    by_cases h2 : c.max_time_seconds < c.path_calculator g path / c.average_speed_m_per_s
    · rw [if_pos h2]
      simp only [true_iff]
      exact ⟨not_le.mp h1, h2⟩
    · rw [if_neg h2]
      simp only [Bool.true_eq_false, false_iff]
      rintro ⟨-, h3⟩; exact h2 h3

/-! ## Claim C6 — the 3×3 grid scenario -/

/-- Claim C6, counterexample: on the 3×3 grid with `start = (0,0)`,
`goal = (2,2)` and `max_paths = 5`, the enumerator does NOT return 6 paths —
the `max_paths` cap truncates the 6 minimal lattice paths to 5. -/
theorem claim_C6_cx :
    ¬ (find_all_shortest_paths_optimized grid3 0 8 5).length = 6 := by decide

/-- Claim C6 as amended: on the 3×3 grid from `(0,0)` to `(2,2)`, the BFS
primary path has exactly 4 edges, and the enumerator returns exactly 5
equal-length paths of 4 edges each when called with `max_paths = 5` (the cap
truncates), and all 6 minimal lattice paths, each of 4 edges, when called
with `max_paths = 6`. -/
theorem claim_C6_amended :
    (bfs_shortest_path grid3 0 8 none none false).1.map (fun p => p.length - 1) = some 4 ∧
      (find_all_shortest_paths_optimized grid3 0 8 5).length = 5 ∧
      ((find_all_shortest_paths_optimized grid3 0 8 5).all fun p => p.length - 1 = 4) = true ∧
      (find_all_shortest_paths_optimized grid3 0 8 6).length = 6 ∧
      ((find_all_shortest_paths_optimized grid3 0 8 6).all fun p => p.length - 1 = 4) = true := by
  refine ⟨?_, by decide, by decide, by decide, by decide⟩
  decide

/-! ## Claim C7 — the path-distance fallback formula -/

/-- Claim C7, counterexample: on a pair with no recorded edge length and
coordinates `(0°, 0°)` and `(0°, 180°)`, `calculate_path_distance` returns
the flat approximation `180 · 111000 = 19 980 000`, which differs from the
haversine great-circle value `6 371 000 · π` the claim prescribes.  The code
comment itself calls the fallback a "Simple approximation". -/
theorem claim_C7_cx :
    calculate_path_distance antipodal [0, 1] ≠
      specPairDistanceHaversine antipodal 0 1 := by
  have he : antipodal.edgeLen 0 1 = none := by decide
  have hc0 : antipodal.coords 0 = some (0, 0) := by decide
  have hc1 : antipodal.coords 1 = some (0, 180) := by decide
  have hL : calculate_path_distance antipodal [0, 1] = 19980000 := by
    show pairDistance antipodal 0 1 + calculate_path_distance antipodal [1] = 19980000
    rw [show calculate_path_distance antipodal [1] = 0 from rfl, add_zero]
    unfold pairDistance
    rw [he, hc0, hc1]
    show Real.sqrt ((((0 : ℚ) : ℝ) - ((0 : ℚ) : ℝ)) ^ 2 +
        (((180 : ℚ) : ℝ) - ((0 : ℚ) : ℝ)) ^ 2) * 111000 = 19980000
    push_cast
    rw [show ((0 : ℝ) - 0) ^ 2 + ((180 : ℝ) - 0) ^ 2 = 180 ^ 2 by norm_num]
    rw [Real.sqrt_sq (by norm_num : (0 : ℝ) ≤ 180)]
    norm_num
  have hR : specPairDistanceHaversine antipodal 0 1 = 6371000 * Real.pi := by
    unfold specPairDistanceHaversine
    rw [he, hc0, hc1]
    show specHaversine ((0 : ℚ) : ℝ) ((0 : ℚ) : ℝ) ((0 : ℚ) : ℝ) ((180 : ℚ) : ℝ) =
      6371000 * Real.pi
    unfold specHaversine
    push_cast
    rw [show ((0 : ℝ) * Real.pi / 180) = 0 by ring]
    rw [show ((180 : ℝ) - 0) * Real.pi / 180 = Real.pi by ring]
    rw [show ((0 : ℝ) - 0) / 2 = 0 by ring]
    rw [Real.sin_zero, Real.cos_zero, Real.sin_pi_div_two]
    rw [show (0 : ℝ) ^ 2 + 1 * 1 * 1 ^ 2 = 1 by norm_num]
    rw [Real.sqrt_one, Real.arcsin_one]
    ring
  rw [hL, hR]
  intro h
  have hpi := Real.pi_gt_d6
  nlinarith

/-- Claim C7 as amended: `calculate_path_distance` is the sum, over
consecutive node pairs, of the recorded edge weight when one exists, of the
flat degree-space approximation `sqrt(Δlat² + Δlon²) · 111000` (not the
haversine great-circle formula) when only coordinates exist, and of nothing
(the pair is skipped without aborting) when the pair's data is entirely
unavailable. -/
theorem claim_C7_amended (g : Graph) (p : List Nat) :
    calculate_path_distance g p =
      ∑ i ∈ Finset.range (p.length - 1),
        specPairDistanceEuclid g (p.getD i 0) (p.getD (i + 1) 0) := by
  induction p with
  | nil => simp [calculate_path_distance]
  | cons u rest ih =>
    cases rest with
    | nil => simp [calculate_path_distance]
    | cons v rest' =>
      show pairDistance g u v + calculate_path_distance g (v :: rest') = _
      rw [ih]
      have hlen : (u :: v :: rest').length - 1 = ((v :: rest').length - 1) + 1 := by
        simp
      rw [hlen, Finset.sum_range_succ']
      simp only [List.getD_cons_succ, List.getD_cons_zero]
      rw [add_comm]
      congr 1

/-! ## Claim C2 / C4 counterexamples -/

/-- Claim C2, counterexample: with `max_paths = 0` and start = goal, the
same-node guard returns `[[start]]` before the cap is ever consulted, so the
enumerator returns 1 > 0 paths. -/
theorem claim_C2_cx :
    ¬ (find_all_shortest_paths_optimized oneNode 0 0 0).length ≤ 0 := by decide

/-- Claim C4, counterexample: `max_distance = 0.0` is Python-falsy, so the
distance check is skipped entirely: on the two-node graph with a 100 m edge
and limit `D = 0`, BFS returns the path `[0, 1]` whose calculated distance
100 m is not `≤ 0`. -/
theorem claim_C4_cx :
    (bfs_shortest_path twoNode 0 1 none (some 0) false).1 = some [0, 1] ∧
      ¬ calculate_path_distance twoNode [0, 1] ≤ ((0 : ℚ) : ℝ) := by
  constructor
  · decide
  · have : calculate_path_distance twoNode [0, 1] = 100 := by
      show pairDistance twoNode 0 1 + calculate_path_distance twoNode [1] = 100
      rw [show calculate_path_distance twoNode [1] = 0 from rfl, add_zero]
      unfold pairDistance
      rw [show twoNode.edgeLen 0 1 = some 100 from by decide]
      norm_num
    rw [this]
    push_cast
    norm_num

/-! ## Claim C10 — the alternative path is always `None` -/

/-- One neighbor-loop pass preserves "no alternative recorded" and "a found
shortest length implies the goal is already visited": the recording branch
needs a second, unvisited discovery of the goal, which the visited set makes
impossible. -/
theorem bfsStep_alt_none (g : Graph) (goal : Nat) (md : Option ℚ) (fa : Bool) (rf cur : Nat) :
    ∀ ns q vis par sl alt, alt = none → (sl ≠ none → goal ∈ vis) →
      (∀ r, bfsStep g goal md fa rf cur ns q vis par sl alt = Sum.inl r → r.2.2 = none) ∧
      (∀ q' vis' par' sl' alt',
        bfsStep g goal md fa rf cur ns q vis par sl alt = Sum.inr (q', vis', par', sl', alt') →
        alt' = none ∧ (sl' ≠ none → goal ∈ vis')) := by
  intro ns
  induction ns with
  | nil =>
    intro q vis par sl alt halt hsl
    constructor
    · intro r h; cases h
    · intro q' vis' par' sl' alt' h
      rw [bfsStep] at h
      cases h
      exact ⟨halt, hsl⟩
  | cons nb rest ih =>
    intro q vis par sl alt halt hsl
    rw [bfsStep]
    by_cases hmem : nb ∈ vis
    · rw [if_pos hmem]
      exact ih q vis par sl alt halt hsl
    · rw [if_neg hmem]
      by_cases hgoal : nb = goal
      · rw [if_pos hgoal]
        cases sl with
        | some len =>
          exact absurd (hgoal ▸ hsl (by simp)) hmem
        | none =>
          simp only
          split
          · constructor
            · intro r h; cases h; rfl
            · intro q' vis' par' sl' alt' h; cases h
          · split
            · constructor
              · intro r h; cases h; rfl
              · intro q' vis' par' sl' alt' h; cases h
            · refine ih _ _ _ _ _ halt ?_
              intro _
              exact hgoal ▸ List.mem_append_right vis (List.mem_singleton.mpr rfl)
      · rw [if_neg hgoal]
        refine ih _ _ _ _ _ halt ?_
        intro h
        exact List.mem_append_left _ (hsl h)

/-- The BFS loop never returns a non-`None` alternative path, for any state
satisfying the `bfsStep_alt_none` invariant. -/
theorem bfsLoop_alt_none (g : Graph) (goal : Nat) (mn : Option Nat) (md : Option ℚ)
    (fa : Bool) (rf : Nat) :
    ∀ fuel q vis par proc sl alt, alt = none → (sl ≠ none → goal ∈ vis) →
      ∀ r c, bfsLoop g goal mn md fa rf fuel q vis par proc sl alt = some (r, c) →
        r.2.2 = none := by
  intro fuel
  induction fuel with
  | zero =>
    intro q vis par proc sl alt halt hsl r c h
    cases q with
    | nil =>
      cases sl with
      | some len =>
        rw [bfsLoop] at h
        cases h
        simpa using halt
      | none =>
        rw [bfsLoop] at h
        cases h
        rfl
    | cons a as => cases h
  | succ fuel ih =>
    intro q vis par proc sl alt halt hsl r c h
    cases q with
    | nil =>
      cases sl with
      | some len =>
        rw [bfsLoop] at h
        cases h
        simpa using halt
      | none =>
        rw [bfsLoop] at h
        cases h
        rfl
    | cons current qrest =>
      rw [bfsLoop] at h
      by_cases hlim : validate_node_limit (proc + 1) mn = true
      · rw [if_pos hlim] at h
        cases h
        rfl
      · rw [if_neg hlim] at h
        obtain ⟨hinl, hinr⟩ :=
          bfsStep_alt_none g goal md fa rf current (g.adj current) qrest vis par sl alt halt hsl
        cases hstep : bfsStep g goal md fa rf current (g.adj current) qrest vis par sl alt with
        | inl r0 =>
          rw [hstep] at h
          cases h
          exact hinl _ hstep
        | inr st =>
          rw [hstep] at h
          obtain ⟨q', vis', par', sl', alt'⟩ := st
          obtain ⟨halt', hsl'⟩ := hinr q' vis' par' sl' alt' hstep
          exact ih q' vis' par' (proc + 1) sl' alt' halt' hsl' r c h

/-- Claim C10: for every graph, start, goal and every option combination —
including `find_alternative = True` — the third component of
`bfs_shortest_path`'s result (the alternative path) is `None`: the goal is
added to the visited set at its first discovery and visited neighbors are
never re-examined, so the branch recording a second equal-length path never
executes. -/
theorem claim_C10 (g : Graph) (s t : Nat) (mn : Option Nat) (md : Option ℚ) (fa : Bool) :
    (bfs_shortest_path g s t mn md fa).2.2 = none := by
  unfold bfs_shortest_path bfsRun
  by_cases hst : s = t
  · rw [if_pos hst]
    rfl
  · rw [if_neg hst]
    cases hrun : bfsLoop g t mn md fa (FUEL g) (FUEL g) [s] [s]
        (fun x => if x = s then some none else none) 0 none none with
    | none => rfl
    | some rc =>
      obtain ⟨r, c⟩ := rc
      exact bfsLoop_alt_none g t mn md fa (FUEL g) (FUEL g) [s] [s] _ 0 none none rfl
        (by simp) r c hrun

/-! ## Claim C3 — streaming and batch enumeration agree -/

/-- The capped batch backtrack is the first `max_paths - |acc|` yields of the
uncapped streaming backtrack, appended to the accumulator — for every fuel,
parent map and position. -/
theorem backtrack_eq_take_stream (par : Nat → Option (List Nat)) (s k : Nat) :
    ∀ fuel node cp acc,
      backtrackFuel par s k fuel node cp acc =
        acc ++ (streamBacktrack par s fuel node cp).take (k - acc.length) := by
  intro fuel
  induction fuel with
  | zero => intro node cp acc; simp [backtrackFuel, streamBacktrack]
  | succ fuel ihf =>
    intro node cp acc
    rw [backtrackFuel, streamBacktrack]
    by_cases hk : k ≤ acc.length
    · rw [if_pos hk]
      have : k - acc.length = 0 := by omega
      rw [this]
      simp
    · rw [if_neg hk]
      by_cases hnode : node = s
      · rw [if_pos hnode, if_pos hnode]
        have : 1 ≤ k - acc.length := by omega
        rw [List.take_of_length_le (by simpa using this)]
      · rw [if_neg hnode, if_neg hnode]
        cases hpar : par node with
        | none => simp
        | some ps =>
          simp only
          clear hpar hk
          induction ps generalizing acc with
          | nil => simp
          | cons p rest ihp =>
            simp only at ihp ⊢
            rw [List.flatMap_cons, List.foldl_cons]
            by_cases hk2 : k ≤ acc.length
            · rw [if_pos hk2, ihp acc]
              have h0 : k - acc.length = 0 := by omega
              rw [h0]
              simp
            · rw [if_neg hk2]
              rw [ihf p (cp ++ [p]) acc]
              rw [ihp]
              rw [List.take_append_eq_append_take, List.append_assoc]
              congr 2
              have h1 : ((streamBacktrack par s fuel p (cp ++ [p])).take (k - acc.length)).length =
                  min (k - acc.length) (streamBacktrack par s fuel p (cp ++ [p])).length := by
                simp
              congr 1
              simp only [List.length_append, h1]
              omega

/-- The streaming enumerator returns exactly the batch enumerator's list:
identical guards and parent tree, and the stream's first `max_paths` yields
are the capped backtrack. -/
theorem streaming_eq_optimized (g : Graph) (s t k : Nat) :
    find_all_shortest_paths_streaming g s t k = find_all_shortest_paths_optimized g s t k := by
  unfold find_all_shortest_paths_streaming find_all_shortest_paths_optimized
  by_cases hst : s = t
  · rw [if_pos hst, if_pos hst]
  · rw [if_neg hst, if_neg hst]
    cases hdist : (build_parent_tree g s t).1 t with
    | none => simp only [hdist]
    | some d =>
      simp only [hdist]
      rw [backtrack_eq_take_stream]
      simp

/-- Claim C3: for every graph, start, goal, `max_paths`, and every
`N ≤ max_paths`, the first `N` paths yielded by
`find_all_shortest_paths_streaming` equal, element-wise and in order, the
first `N` paths returned by `find_all_shortest_paths_optimized` (in fact the
two results are identical in full). -/
theorem claim_C3 (g : Graph) (s t k N : Nat) (hN : N ≤ k) :
    (find_all_shortest_paths_streaming g s t k).take N =
      (find_all_shortest_paths_optimized g s t k).take N := by
  rw [streaming_eq_optimized]

/-- Witness for claim C3 on the 3×3 grid with `max_paths = 5`, `N = 2`. -/
theorem claim_C3_witness :
    2 ≤ 5 ∧
      (find_all_shortest_paths_streaming grid3 0 8 5).take 2 =
        (find_all_shortest_paths_optimized grid3 0 8 5).take 2 :=
  ⟨by decide, claim_C3 grid3 0 8 5 2 (by decide)⟩

/-! ## General BFS facts shared by both search loops -/

theorem pathOk_snoc {g : Graph} {s u v : Nat} {p : List Nat}
    (hp : PathOk g s u p) (hadj : v ∈ g.adj u) : PathOk g s v (p ++ [v]) := by
  obtain ⟨hhead, hlast, hchain⟩ := hp
  refine ⟨?_, List.getLast?_concat p, ?_⟩
  · rw [List.head?_append_of_ne_nil _ (pathOk_ne_nil ⟨hhead, hlast, hchain⟩)]
    exact hhead
  · rw [List.chain'_append]
    refine ⟨hchain, List.chain'_singleton v, ?_⟩
    intro x hx y hy
    rw [hlast] at hx
    cases hx
    cases hy
    exact hadj

theorem reachable_step {g : Graph} {s u v : Nat} (hr : Reachable g s u)
    (hadj : v ∈ g.adj u) : Reachable g s v := by
  obtain ⟨p, hp⟩ := hr
  exact ⟨p ++ [v], pathOk_snoc hp hadj⟩

theorem hopDist_succ_le {g : Graph} {s u v : Nat} (hr : Reachable g s u)
    (hadj : v ∈ g.adj u) : hopDist g s v ≤ hopDist g s u + 1 := by
  obtain ⟨p, hp, hlen⟩ := hopDist_spec hr
  have := hopDist_le (pathOk_snoc hp hadj)
  simp only [List.length_append, List.length_singleton] at this
  omega

theorem hopDist_eq_zero {g : Graph} {s v : Nat} (hr : Reachable g s v)
    (hz : hopDist g s v = 0) : v = s := by
  obtain ⟨p, hp, hlen⟩ := hopDist_spec hr
  rw [hz] at hlen
  obtain ⟨x, hx⟩ : ∃ x, p = [x] := by
    cases p with
    | nil => simp at hlen
    | cons a rest =>
      cases rest with
      | nil => exact ⟨a, rfl⟩
      | cons b rest' => simp at hlen
  rw [hx] at hp
  obtain ⟨h1, h2, -⟩ := hp
  simp at h1 h2
  rw [← h1, ← h2]

/-- Any list whose head is in `vis` and whose last element is not splits at a
crossing pair: a member of `vis` immediately followed by a non-member. -/
theorem exists_crossing (vis : List Nat) :
    ∀ (p : List Nat) (w : Nat), p.getLast? = some w → w ∉ vis →
      ∀ a, p.head? = some a → a ∈ vis →
      ∃ p1 u v p2, p = p1 ++ u :: v :: p2 ∧ u ∈ vis ∧ v ∉ vis := by
  intro p
  induction p with
  | nil => intro w hlast; simp at hlast
  | cons a rest ih =>
    intro w hlast hw a' hhead ha'
    have haa : a' = a := by simpa using hhead.symm
    subst haa
    cases rest with
    | nil =>
      have : a' = w := by simpa using hlast
      exact absurd ha' (this ▸ hw)
    | cons b rest' =>
      by_cases hb : b ∈ vis
      · obtain ⟨p1, u, v, p2, heq, hu, hv⟩ :=
          ih w (by simpa using hlast) hw b rfl hb
        exact ⟨a' :: p1, u, v, p2, by rw [heq]; rfl, hu, hv⟩
      · exact ⟨[], a', b, rest', rfl, ha', hb⟩

/-- `F` is a frontier for `vis`: every visited node outside `F` has all of
its neighbors visited. -/
def Expanded (g : Graph) (vis F : List Nat) : Prop :=
  ∀ v ∈ vis, v ∉ F → ∀ w ∈ g.adj v, w ∈ vis

/-- The central BFS lower-bound argument: any path from a visited start to an
unvisited node crosses the frontier, so its length is at least the hop
distance of some frontier member plus two. -/
theorem frontier_bound {g : Graph} {s w : Nat} {vis F : List Nat} {p : List Nat}
    (hexp : Expanded g vis F)
    (hsv : s ∈ vis) (hw : w ∉ vis) (hp : PathOk g s w p) :
    ∃ u, u ∈ F ∧ u ∈ vis ∧ hopDist g s u + 2 ≤ p.length := by
  obtain ⟨hhead, hlast, hchain⟩ := hp
  obtain ⟨p1, u, v, p2, heq, hu, hv⟩ := exists_crossing vis p w hlast hw s hhead hsv
  subst heq
  have hedge : v ∈ g.adj u := by
    have h2 := (List.chain'_append.mp hchain).2.1
    exact (List.chain'_cons.mp h2).1
  have huF : u ∈ F := by
    by_contra huF
    exact hv (hexp u hu huF v hedge)
  have hpre : PathOk g s u (p1 ++ [u]) := by
    refine ⟨?_, List.getLast?_concat p1, ?_⟩
    · have : (p1 ++ [u]).head? = (p1 ++ u :: v :: p2).head? := by
        cases p1 with
        | nil => rfl
        | cons x xs => rfl
      rw [this, hhead]
    · refine hchain.prefix ⟨v :: p2, ?_⟩
      simp
  have hle := hopDist_le hpre
  refine ⟨u, huF, hu, ?_⟩
  have h1 : (p1 ++ [u]).length = p1.length + 1 := by simp
  have h2 : (p1 ++ u :: v :: p2).length = p1.length + 2 + p2.length := by
    simp
    omega
  omega

/-- The BFS queue always consists of (at most) two consecutive hop-distance
layers. -/
def TwoBlocks (g : Graph) (s : Nat) (q : List Nat) : Prop :=
  ∃ d A B, q = A ++ B ∧ (∀ a ∈ A, hopDist g s a = d) ∧ (∀ b ∈ B, hopDist g s b = d + 1)

theorem twoBlocks_nil (g : Graph) (s : Nat) : TwoBlocks g s [] :=
  ⟨0, [], [], rfl, by simp, by simp⟩

theorem twoBlocks_singleton (g : Graph) (s x : Nat) : TwoBlocks g s [x] :=
  ⟨hopDist g s x, [x], [], by simp, by simp, by simp⟩

theorem twoBlocks_head_le {g : Graph} {s cur : Nat} {qrest : List Nat}
    (htb : TwoBlocks g s (cur :: qrest)) :
    ∀ x ∈ qrest, hopDist g s cur ≤ hopDist g s x ∧
      hopDist g s x ≤ hopDist g s cur + 1 := by
  obtain ⟨d, A, B, heq, hA, hB⟩ := htb
  intro x hx
  cases A with
  | nil =>
    have hcur : hopDist g s cur = d + 1 := by
      apply hB
      rw [List.nil_append] at heq
      rw [← heq]
      exact List.mem_cons_self _ _
    have hxB : hopDist g s x = d + 1 := by
      apply hB
      rw [List.nil_append] at heq
      rw [← heq]
      exact List.mem_cons_of_mem _ hx
    omega
  | cons a A' =>
    rw [List.cons_append] at heq
    injection heq with h1 h2
    subst h1
    have hcur : hopDist g s cur = d := hA cur (List.mem_cons_self _ _)
    subst h2
    rcases List.mem_append.mp hx with hxa | hxb
    · have := hA x (List.mem_cons_of_mem _ hxa); omega
    · have := hB x hxb; omega

/-- Popping the queue head and appending next-layer nodes preserves the
two-block structure. -/
theorem twoBlocks_step {g : Graph} {s cur : Nat} {qrest new : List Nat}
    (htb : TwoBlocks g s (cur :: qrest))
    (hnew : ∀ x ∈ new, hopDist g s x = hopDist g s cur + 1) :
    TwoBlocks g s (qrest ++ new) := by
  obtain ⟨d, A, B, heq, hA, hB⟩ := htb
  cases A with
  | nil =>
    rw [List.nil_append] at heq
    have hcur : hopDist g s cur = d + 1 := by
      apply hB; rw [← heq]; exact List.mem_cons_self _ _
    refine ⟨d + 1, qrest, new, rfl, ?_, ?_⟩
    · intro x hx
      apply hB; rw [← heq]; exact List.mem_cons_of_mem _ hx
    · intro x hx
      rw [hnew x hx, hcur]
  | cons a A' =>
    rw [List.cons_append] at heq
    injection heq with h1 h2
    subst h1
    have hcur : hopDist g s cur = d := hA cur (List.mem_cons_self _ _)
    subst h2
    refine ⟨d, A', B ++ new, by rw [List.append_assoc], ?_, ?_⟩
    · intro x hx
      exact hA x (List.mem_cons_of_mem _ hx)
    · intro x hx
      rcases List.mem_append.mp hx with hxb | hxn
      · exact hB x hxb
      · rw [hnew x hxn, hcur]

/-! ## Invariants of `_build_parent_tree` -/

/-- The loop invariant of `_build_parent_tree`: the visited set is a
duplicate-free set of reachable graph nodes containing the start, the queue
is a duplicate-free sub-list of the visited set, the distance map records
exactly the true hop distance of every visited node, and the parent map
records only edge-predecessors one hop layer down that have already been
popped. -/
structure BInv (g : Graph) (s : Nat) (q vis : List Nat) (dist : Nat → Option Nat)
    (par : Nat → Option (List Nat)) : Prop where
  vis_nodup : vis.Nodup
  s_vis : s ∈ vis
  q_vis : ∀ x ∈ q, x ∈ vis
  q_nodup : q.Nodup
  dist_keys : ∀ v, (dist v).isSome ↔ v ∈ vis
  par_keys : ∀ v, (par v).isSome ↔ v ∈ vis
  dist_eq : ∀ v ∈ vis, dist v = some (hopDist g s v)
  reach : ∀ v ∈ vis, Reachable g s v
  par_sound : ∀ v ∈ vis, ∀ p ∈ (par v).getD [], p ∈ vis ∧ p ∉ q ∧ v ∈ g.adj p ∧
    hopDist g s v = hopDist g s p + 1
  par_nodup : ∀ v, ((par v).getD []).Nodup

/-- One full pass of `_build_parent_tree`'s neighbor loop preserves the
invariant: newly discovered nodes sit exactly one hop layer above the popped
node (the BFS frontier argument), extra parents are recorded only at the
correct layer, and afterwards the popped node is fully expanded. -/
theorem buildStep_inv (g : Graph) (hwf : WF g) (s cur : Nat) (qrest : List Nat)
    (htb : TwoBlocks g s (cur :: qrest)) :
    ∀ ns done new vis dist par,
      g.adj cur = done ++ ns →
      (∀ w ∈ done, w ∈ vis) →
      cur ∈ vis →
      cur ∉ qrest ++ new →
      (∀ v ∈ ns, ∀ p ∈ (par v).getD [], p ≠ cur) →
      (∀ x ∈ new, hopDist g s x = hopDist g s cur + 1) →
      BInv g s (qrest ++ new) vis dist par →
      Expanded g vis (cur :: (qrest ++ new)) →
      ∃ new2 vis2 dist2 par2,
        buildStep g cur ns (qrest ++ new) vis dist par = (qrest ++ new2, vis2, dist2, par2) ∧
        (∀ x ∈ new2, hopDist g s x = hopDist g s cur + 1) ∧
        BInv g s (qrest ++ new2) vis2 dist2 par2 ∧
        Expanded g vis2 (qrest ++ new2) := by
  intro ns
  induction ns with
  | nil =>
    intro done new vis dist par hadj hdone hcur hcurq hpne hnew binv hexp
    refine ⟨new, vis, dist, par, rfl, hnew, binv, ?_⟩
    intro v hv hvq w hw
    by_cases hvc : v = cur
    · subst hvc
      apply hdone
      rw [hadj, List.append_nil] at hw
      exact hw
    · exact hexp v hv (by simp [hvq, hvc]) w hw
  | cons nb rest ih =>
    intro done new vis dist par hadj hdone hcur hcurq hpne hnew binv hexp
    have hnbadj : nb ∈ g.adj cur := by rw [hadj]; simp
    have hadj_nodup : (done ++ nb :: rest).Nodup := hadj ▸ hwf.adj_nodup cur
    have hnb_rest : nb ∉ rest := by
      have hnotin : nb ∉ done ++ rest :=
        (List.nodup_cons.mp (List.nodup_middle.mp hadj_nodup)).1
      intro hmem
      exact hnotin (List.mem_append_right _ hmem)
    have hadj2 : g.adj cur = (done ++ [nb]) ++ rest := by
      rw [hadj, List.append_assoc, List.singleton_append]
    rw [buildStep]
    by_cases hmem : nb ∈ vis
    · rw [if_pos hmem]
      have hdone2 : ∀ w ∈ done ++ [nb], w ∈ vis := by
        intro w hw
        rcases List.mem_append.mp hw with h | h
        · exact hdone w h
        · rw [List.mem_singleton.mp h]; exact hmem
      by_cases hcond : dist nb = some ((dist cur).getD 0 + 1)
      · rw [if_pos hcond]
        -- the extra-parent branch
        have hdcur : dist cur = some (hopDist g s cur) := binv.dist_eq cur hcur
        have hdnb : dist nb = some (hopDist g s nb) := binv.dist_eq nb hmem
        have hopnb : hopDist g s nb = hopDist g s cur + 1 := by
          rw [hdnb, hdcur] at hcond
          simpa using hcond
        set par' := fun x => if x = nb then some ((par nb).getD [] ++ [cur]) else par x with hpar'
        have hpar'_get : ∀ v, (par' v).getD [] =
            if v = nb then (par nb).getD [] ++ [cur] else (par v).getD [] := by
          intro v
          by_cases h : v = nb <;> simp [hpar', h]
        have binv' : BInv g s (qrest ++ new) vis dist par' :=
          { vis_nodup := binv.vis_nodup
            s_vis := binv.s_vis
            q_vis := binv.q_vis
            q_nodup := binv.q_nodup
            dist_keys := binv.dist_keys
            par_keys := by
              intro v
              by_cases h : v = nb
              · subst h; simp [hpar', hmem]
              · simp only [hpar', h, if_false]
                exact binv.par_keys v
            dist_eq := binv.dist_eq
            reach := binv.reach
            par_sound := by
              intro v hv p hp
              rw [hpar'_get] at hp
              by_cases h : v = nb
              · rw [if_pos h] at hp
                subst h
                rcases List.mem_append.mp hp with hold | hcu
                · exact binv.par_sound v hv p hold
                · rw [List.mem_singleton.mp hcu]
                  exact ⟨hcur, hcurq, hnbadj, hopnb⟩
              · rw [if_neg h] at hp
                exact binv.par_sound v hv p hp
            par_nodup := by
              intro v
              rw [hpar'_get]
              by_cases h : v = nb
              · rw [if_pos h]
                rw [List.nodup_append]
                refine ⟨binv.par_nodup nb, List.nodup_singleton _, ?_⟩
                intro x hx hx2
                exact hpne nb (List.mem_cons_self _ _) x hx (List.mem_singleton.mp hx2)
              · rw [if_neg h]
                exact binv.par_nodup v }
        have hpne' : ∀ v ∈ rest, ∀ p ∈ (par' v).getD [], p ≠ cur := by
          intro v hv p hp
          rw [hpar'_get] at hp
          have hvnb : v ≠ nb := fun h => hnb_rest (h ▸ hv)
          rw [if_neg hvnb] at hp
          exact hpne v (List.mem_cons_of_mem _ hv) p hp
        exact ih (done ++ [nb]) new vis dist par' hadj2 hdone2 hcur hcurq hpne' hnew binv' hexp
      · rw [if_neg hcond]
        have hpne' : ∀ v ∈ rest, ∀ p ∈ (par v).getD [], p ≠ cur := fun v hv =>
          hpne v (List.mem_cons_of_mem _ hv)
        exact ih (done ++ [nb]) new vis dist par hadj2 hdone2 hcur hcurq hpne' hnew binv hexp
    · rw [if_neg hmem]
      -- first discovery of nb
      have hnb_nodes : nb ∈ g.nodes := hwf.adj_mem_nodes hnbadj
      have hreach_nb : Reachable g s nb := reachable_step (binv.reach cur hcur) hnbadj
      have hople : hopDist g s nb ≤ hopDist g s cur + 1 :=
        hopDist_succ_le (binv.reach cur hcur) hnbadj
      have hopge : hopDist g s cur + 1 ≤ hopDist g s nb := by
        obtain ⟨p, hp, hlen⟩ := hopDist_spec hreach_nb
        obtain ⟨u, huF, huvis, hub⟩ := frontier_bound hexp binv.s_vis hmem hp
        have hucur : hopDist g s cur ≤ hopDist g s u := by
          rcases List.mem_cons.mp huF with h | h
          · rw [h]
          · rcases List.mem_append.mp h with hq | hn
            · exact (twoBlocks_head_le htb u hq).1
            · rw [hnew u hn]; omega
        omega
      have hopnb : hopDist g s nb = hopDist g s cur + 1 := le_antisymm hople hopge
      have hdcur : dist cur = some (hopDist g s cur) := binv.dist_eq cur hcur
      set vis' := vis ++ [nb] with hvis'
      set dist' := fun x => if x = nb then some ((dist cur).getD 0 + 1) else dist x with hdist'
      set par' := fun x => if x = nb then some [cur] else par x with hpar'
      have hmem_vis' : ∀ x, x ∈ vis' ↔ x ∈ vis ∨ x = nb := by
        intro x; simp [hvis']
      have hcur_ne_nb : cur ≠ nb := fun h => hmem (h ▸ hcur)
      have hdist'_nb : dist' nb = some (hopDist g s nb) := by
        simp [hdist', hdcur, hopnb]
      have hnew' : ∀ x ∈ new ++ [nb], hopDist g s x = hopDist g s cur + 1 := by
        intro x hx
        rcases List.mem_append.mp hx with h | h
        · exact hnew x h
        · rw [List.mem_singleton.mp h, hopnb]
      have hcurq' : cur ∉ qrest ++ (new ++ [nb]) := by
        intro hc
        rcases List.mem_append.mp hc with h | h
        · exact hcurq (List.mem_append_left _ h)
        · rcases List.mem_append.mp h with h2 | h2
          · exact hcurq (List.mem_append_right _ h2)
          · exact hcur_ne_nb (List.mem_singleton.mp h2)
      have binv' : BInv g s (qrest ++ (new ++ [nb])) vis' dist' par' :=
        { vis_nodup := by
            rw [hvis', List.nodup_append]
            refine ⟨binv.vis_nodup, List.nodup_singleton _, ?_⟩
            intro x hx hx2
            exact hmem ((List.mem_singleton.mp hx2) ▸ hx)
          s_vis := (hmem_vis' s).mpr (Or.inl binv.s_vis)
          q_vis := by
            intro x hx
            rw [← List.append_assoc] at hx
            rcases List.mem_append.mp hx with h | h
            · exact (hmem_vis' x).mpr (Or.inl (binv.q_vis x h))
            · exact (hmem_vis' x).mpr (Or.inr (List.mem_singleton.mp h))
          q_nodup := by
            rw [← List.append_assoc, List.nodup_append]
            refine ⟨binv.q_nodup, List.nodup_singleton _, ?_⟩
            intro x hx hx2
            exact hmem ((List.mem_singleton.mp hx2) ▸ binv.q_vis x hx)
          dist_keys := by
            intro v
            rw [hmem_vis' v]
            by_cases h : v = nb
            · subst h; simp [hdist']
            · simp only [hdist', h, if_false]
              rw [binv.dist_keys v]
              constructor
              · exact Or.inl
              · rintro (hh | hh)
                · exact hh
                · exact hh.elim
          par_keys := by
            intro v
            rw [hmem_vis' v]
            by_cases h : v = nb
            · subst h; simp [hpar']
            · simp only [hpar', h, if_false]
              rw [binv.par_keys v]
              constructor
              · exact Or.inl
              · rintro (hh | hh)
                · exact hh
                · exact hh.elim
          dist_eq := by
            intro v hv
            by_cases h : v = nb
            · subst h; exact hdist'_nb
            · rcases (hmem_vis' v).mp hv with hh | hh
              · simp only [hdist', h, if_false]
                exact binv.dist_eq v hh
              · exact absurd hh h
          reach := by
            intro v hv
            rcases (hmem_vis' v).mp hv with hh | hh
            · exact binv.reach v hh
            · rw [hh]; exact hreach_nb
          par_sound := by
            intro v hv p hp
            by_cases h : v = nb
            · subst h
              simp only [hpar', if_pos rfl, Option.getD_some] at hp
              rw [List.mem_singleton.mp hp]
              exact ⟨(hmem_vis' cur).mpr (Or.inl hcur), hcurq', hnbadj, hopnb⟩
            · simp only [hpar', h, if_false] at hp
              rcases (hmem_vis' v).mp hv with hh | hh
              · obtain ⟨h1, h2, h3, h4⟩ := binv.par_sound v hh p hp
                refine ⟨(hmem_vis' p).mpr (Or.inl h1), ?_, h3, h4⟩
                intro hc
                rw [← List.append_assoc] at hc
                rcases List.mem_append.mp hc with hc2 | hc2
                · exact h2 hc2
                · exact hmem ((List.mem_singleton.mp hc2) ▸ h1)
              · exact absurd hh h
          par_nodup := by
            intro v
            by_cases h : v = nb
            · subst h; simp [hpar']
            · simp only [hpar', h, if_false]
              exact binv.par_nodup v }
      have hexp' : Expanded g vis' (cur :: (qrest ++ (new ++ [nb]))) := by
        intro v hv hvF w hw
        have hvnb : v ≠ nb := by
          intro hc
          exact hvF (by
            rw [hc]
            rw [← List.append_assoc]
            exact List.mem_cons_of_mem _ (List.mem_append_right _ (List.mem_singleton.mpr rfl)))
        rcases (hmem_vis' v).mp hv with hh | hh
        · refine (hmem_vis' w).mpr (Or.inl ?_)
          refine hexp v hh ?_ w hw
          intro hc
          rcases List.mem_cons.mp hc with hc2 | hc2
          · exact hvF (hc2 ▸ List.mem_cons_self _ _)
          · refine hvF (List.mem_cons_of_mem _ ?_)
            rw [← List.append_assoc]
            exact List.mem_append_left _ hc2
        · exact absurd hh hvnb
      have hpne' : ∀ v ∈ rest, ∀ p ∈ (par' v).getD [], p ≠ cur := by
        intro v hv p hp
        have hvnb : v ≠ nb := fun h => hnb_rest (h ▸ hv)
        simp only [hpar', hvnb, if_false] at hp
        exact hpne v (List.mem_cons_of_mem _ hv) p hp
      have hdone2 : ∀ w ∈ done ++ [nb], w ∈ vis' := by
        intro w hw
        rcases List.mem_append.mp hw with h | h
        · exact (hmem_vis' w).mpr (Or.inl (hdone w h))
        · exact (hmem_vis' w).mpr (Or.inr (List.mem_singleton.mp h))
      have hcur' : cur ∈ vis' := (hmem_vis' cur).mpr (Or.inl hcur)
      have := ih (done ++ [nb]) (new ++ [nb]) vis' dist' par' hadj2 hdone2 hcur' hcurq'
        hpne' hnew' binv' hexp'
      rw [← List.append_assoc] at this
      exact this

/-- The facts that hold of the `(distance, parents)` maps on every exit of
`_build_parent_tree`: recorded distances are true hop distances of reachable
nodes, only the start has distance 0, and parent entries step the distance
down by exactly one along a graph edge, without duplicates. -/
structure DPFacts (g : Graph) (s : Nat) (dist : Nat → Option Nat)
    (par : Nat → Option (List Nat)) : Prop where
  dist_s : dist s = some 0
  dist_hop : ∀ v k, dist v = some k → k = hopDist g s v ∧ Reachable g s v
  zero_iff : ∀ v k, dist v = some k → (k = 0 ↔ v = s)
  par_step : ∀ v p, p ∈ (par v).getD [] → ∃ dv dp, dist v = some dv ∧ dist p = some dp ∧
    dv = dp + 1 ∧ v ∈ g.adj p
  par_nodup : ∀ v, ((par v).getD []).Nodup

theorem BInv.toDPFacts {g : Graph} {s : Nat} {q vis : List Nat} {dist : Nat → Option Nat}
    {par : Nat → Option (List Nat)} (binv : BInv g s q vis dist par) :
    DPFacts g s dist par := by
  have hvis_of : ∀ v k, dist v = some k → v ∈ vis := by
    intro v k hk
    exact (binv.dist_keys v).mp (by rw [hk]; rfl)
  refine ⟨?_, ?_, ?_, ?_, binv.par_nodup⟩
  · rw [binv.dist_eq s binv.s_vis, hopDist_self]
  · intro v k hk
    have hv := hvis_of v k hk
    rw [binv.dist_eq v hv] at hk
    exact ⟨(Option.some.injEq _ _ ▸ hk).symm ▸ rfl, binv.reach v hv⟩
  · intro v k hk
    have hv := hvis_of v k hk
    rw [binv.dist_eq v hv] at hk
    have hkeq : k = hopDist g s v := by
      injection hk.symm
    constructor
    · intro h0
      exact hopDist_eq_zero (binv.reach v hv) (by rw [← hkeq, h0])
    · intro hvs
      rw [hkeq, hvs, hopDist_self]
  · intro v p hp
    by_cases hv : v ∈ vis
    · obtain ⟨h1, h2, h3, h4⟩ := binv.par_sound v hv p hp
      exact ⟨hopDist g s v, hopDist g s p, binv.dist_eq v hv, binv.dist_eq p h1, h4, h3⟩
    · have hnone : par v = none := by
        cases hpv : par v with
        | none => rfl
        | some l => exact absurd ((binv.par_keys v).mp (by rw [hpv]; rfl)) hv
      rw [hnone] at hp
      simp at hp

/-- Every exit of `_build_parent_tree`'s loop — goal popped, queue
exhausted, or the fuel artifact — delivers maps satisfying `DPFacts`. -/
theorem buildLoop_inv (g : Graph) (hwf : WF g) (s t : Nat) :
    ∀ fuel q vis dist par, BInv g s q vis dist par → Expanded g vis q → TwoBlocks g s q →
      DPFacts g s (buildLoop g t fuel q vis dist par).1
        (buildLoop g t fuel q vis dist par).2 := by
  intro fuel
  induction fuel with
  | zero =>
    intro q vis dist par binv hexp htb
    cases q with
    | nil => rw [buildLoop]; exact binv.toDPFacts
    | cons a as => rw [buildLoop]; exact binv.toDPFacts
  | succ fuel ih =>
    intro q vis dist par binv hexp htb
    cases q with
    | nil => rw [buildLoop]; exact binv.toDPFacts
    | cons cur qrest =>
      rw [buildLoop]
      by_cases hcg : cur = t
      · rw [if_pos hcg]
        exact binv.toDPFacts
      · rw [if_neg hcg]
        have hcur : cur ∈ vis := binv.q_vis cur (List.mem_cons_self _ _)
        have hcurq : cur ∉ qrest := (List.nodup_cons.mp binv.q_nodup).1
        have binv0 : BInv g s (qrest ++ []) vis dist par :=
          { vis_nodup := binv.vis_nodup
            s_vis := binv.s_vis
            q_vis := by
              intro x hx
              rw [List.append_nil] at hx
              exact binv.q_vis x (List.mem_cons_of_mem _ hx)
            q_nodup := by
              rw [List.append_nil]
              exact (List.nodup_cons.mp binv.q_nodup).2
            dist_keys := binv.dist_keys
            par_keys := binv.par_keys
            dist_eq := binv.dist_eq
            reach := binv.reach
            par_sound := by
              intro v hv p hp
              obtain ⟨h1, h2, h3, h4⟩ := binv.par_sound v hv p hp
              refine ⟨h1, ?_, h3, h4⟩
              rw [List.append_nil]
              exact fun hc => h2 (List.mem_cons_of_mem _ hc)
            par_nodup := binv.par_nodup }
        have hexp0 : Expanded g vis (cur :: (qrest ++ [])) := by
          rw [List.append_nil]
          exact hexp
        have hpne : ∀ v ∈ g.adj cur, ∀ p ∈ (par v).getD [], p ≠ cur := by
          intro v hv p hp
          by_cases hvvis : v ∈ vis
          · obtain ⟨-, h2, -, -⟩ := binv.par_sound v hvvis p hp
            exact fun hc => h2 (hc ▸ List.mem_cons_self _ _)
          · have hnone : par v = none := by
              cases hpv : par v with
              | none => rfl
              | some l => exact absurd ((binv.par_keys v).mp (by rw [hpv]; rfl)) hvvis
            rw [hnone] at hp
            simp at hp
        obtain ⟨new2, vis2, dist2, par2, hstep, hnew2, binv2, hexp2⟩ :=
          buildStep_inv g hwf s cur qrest htb (g.adj cur) [] [] vis dist par
            (by simp) (by simp) hcur (by simpa using hcurq) hpne (by simp) binv0 hexp0
        simp only [List.append_nil] at hstep
        rw [hstep]
        exact ih (qrest ++ new2) vis2 dist2 par2 binv2 hexp2 (twoBlocks_step htb hnew2)

/-- The maps returned by `_build_parent_tree` satisfy `DPFacts`. -/
theorem build_parent_tree_facts (g : Graph) (hwf : WF g) (s t : Nat) :
    DPFacts g s (build_parent_tree g s t).1 (build_parent_tree g s t).2 := by
  unfold build_parent_tree
  apply buildLoop_inv g hwf s t
  · exact
      { vis_nodup := List.nodup_singleton s
        s_vis := List.mem_singleton.mpr rfl
        q_vis := by intro x hx; exact hx
        q_nodup := List.nodup_singleton s
        dist_keys := by
          intro v
          by_cases h : v = s <;> simp [h]
        par_keys := by
          intro v
          by_cases h : v = s <;> simp [h]
        dist_eq := by
          intro v hv
          rw [List.mem_singleton.mp hv]
          simp [hopDist_self]
        reach := by
          intro v hv
          rw [List.mem_singleton.mp hv]
          exact ⟨[s], pathOk_single g s⟩
        par_sound := by
          intro v hv p hp
          rw [List.mem_singleton.mp hv] at hp
          simp at hp
        par_nodup := by
          intro v
          by_cases h : v = s <;> simp [h] }
  · intro v hv hvq
    exact absurd hv hvq
  · exact twoBlocks_singleton g s s

/-- Shape of the yields of `_stream_backtrack`: starting from a node at
recorded distance `dn` with partial chain `cp`, every yielded path is the
reversed chain extended in front by exactly `dn` nodes. -/
theorem stream_elem_shape {g : Graph} {s : Nat} {dist : Nat → Option Nat}
    {par : Nat → Option (List Nat)} (dp : DPFacts g s dist par) :
    ∀ fuel node cp dn, dist node = some dn →
      ∀ e ∈ streamBacktrack par s fuel node cp,
        ∃ w : List Nat, e = w ++ cp.reverse ∧ w.length = dn := by
  intro fuel
  induction fuel with
  | zero => intro node cp dn hdn e he; simp [streamBacktrack] at he
  | succ fuel ih =>
    intro node cp dn hdn e he
    rw [streamBacktrack] at he
    by_cases hns : node = s
    · rw [if_pos hns] at he
      have hecp : e = cp.reverse := by simpa using he
      subst hns
      have hdn0 : dn = 0 := by
        rw [dp.dist_s] at hdn
        injection hdn with h
        exact h.symm
      exact ⟨[], by simpa using hecp, by simp [hdn0]⟩
    · rw [if_neg hns] at he
      cases hpar : par node with
      | none => rw [hpar] at he; simp at he
      | some ps =>
        rw [hpar] at he
        simp only [List.mem_flatMap] at he
        obtain ⟨p, hp, hep⟩ := he
        have hpmem : p ∈ (par node).getD [] := by rw [hpar]; simpa using hp
        obtain ⟨dv, dpp, hdv, hdp, hstep, hadj⟩ := dp.par_step node p hpmem
        have hdveq : dv = dn := by
          rw [hdv] at hdn
          injection hdn
        obtain ⟨w', hew, hwl⟩ := ih p (cp ++ [p]) dpp hdp e hep
        refine ⟨w' ++ [p], ?_, ?_⟩
        · rw [hew, List.reverse_append, List.append_assoc]
          simp
        · simp only [List.length_append, List.length_singleton, hwl]
          omega

/-- The yields of `_stream_backtrack` are pairwise distinct: sibling parent
branches disagree at a fixed position (the parent itself), and recursive
yields within a branch are distinct by induction. -/
theorem stream_nodup {g : Graph} {s : Nat} {dist : Nat → Option Nat}
    {par : Nat → Option (List Nat)} (dp : DPFacts g s dist par) :
    ∀ fuel node cp dn, dist node = some dn →
      (streamBacktrack par s fuel node cp).Nodup := by
  intro fuel
  induction fuel with
  | zero => intro node cp dn hdn; rw [streamBacktrack]; exact List.nodup_nil
  | succ fuel ih =>
    intro node cp dn hdn
    rw [streamBacktrack]
    by_cases hns : node = s
    · rw [if_pos hns]; exact List.nodup_singleton _
    · rw [if_neg hns]
      cases hpar : par node with
      | none => exact List.nodup_nil
      | some ps =>
        simp only
        have hnd : ps.Nodup := by
          have := dp.par_nodup node
          rw [hpar] at this
          simpa using this
        have hsub : ∀ x ∈ ps, x ∈ (par node).getD [] := by
          intro x hx
          rw [hpar]
          simpa using hx
        clear hpar
        induction ps with
        | nil => simp
        | cons p rest ihp =>
          rw [List.flatMap_cons, List.nodup_append]
          obtain ⟨dv, dpp, hdv, hdp, hstep, hadjp⟩ :=
            dp.par_step node p (hsub p (List.mem_cons_self _ _))
          have hdveq : dv = dn := by rw [hdv] at hdn; injection hdn
          refine ⟨ih p (cp ++ [p]) dpp hdp, ?_, ?_⟩
          · exact ihp (List.nodup_cons.mp hnd).2 (fun x hx => hsub x (List.mem_cons_of_mem _ hx))
          · intro e he he2
            obtain ⟨p', hp', hep'⟩ := List.mem_flatMap.mp he2
            obtain ⟨dv', dpp', hdv', hdp', hstep', hadjp'⟩ :=
              dp.par_step node p' (hsub p' (List.mem_cons_of_mem _ hp'))
            have hdveq' : dv' = dn := by rw [hdv'] at hdn; injection hdn
            obtain ⟨w, hew, hwl⟩ := stream_elem_shape dp fuel p (cp ++ [p]) dpp hdp e he
            obtain ⟨w', hew', hwl'⟩ := stream_elem_shape dp fuel p' (cp ++ [p']) dpp' hdp' e hep'
            rw [hew] at hew'
            rw [List.reverse_append, List.reverse_append] at hew'
            simp only [List.reverse_singleton, List.singleton_append] at hew'
            rw [show w ++ p :: cp.reverse = (w ++ [p]) ++ cp.reverse from by simp,
              show w' ++ p' :: cp.reverse = (w' ++ [p']) ++ cp.reverse from by simp] at hew'
            have h1 : w ++ [p] = w' ++ [p'] := List.append_cancel_right hew'
            have h2 : [p] = [p'] := (List.append_inj h1 (by omega)).2
            have h3 : p = p' := by injection h2
            exact (List.nodup_cons.mp hnd).1 (h3 ▸ hp')

/-! ## Claim C2 — enumerator cap, equal lengths, distinctness -/

/-- Claim C2 as amended (the cap claim requires `max_paths ≥ 1`; with
`max_paths = 0` and start = goal the same-node guard still returns one
path): for every well-formed graph, `find_all_shortest_paths_optimized`
returns at most `max_paths` paths, every returned path has node count equal
to the BFS hop distance from start to goal plus one, and no two returned
paths are equal. -/
theorem claim_C2_amended (g : Graph) (hwf : WF g) (s t k : Nat) (hk : 1 ≤ k) :
    (find_all_shortest_paths_optimized g s t k).length ≤ k ∧
      (∀ p ∈ find_all_shortest_paths_optimized g s t k, p.length = hopDist g s t + 1) ∧
      (find_all_shortest_paths_optimized g s t k).Nodup := by
  unfold find_all_shortest_paths_optimized
  by_cases hst : s = t
  · rw [if_pos hst]
    subst hst
    refine ⟨by simpa using hk, ?_, List.nodup_singleton _⟩
    intro p hp
    rw [List.mem_singleton.mp hp]
    simp [hopDist_self]
  · rw [if_neg hst]
    cases hdist : (build_parent_tree g s t).1 t with
    | none =>
      simp only [hdist]
      exact ⟨by simp, by simp, List.nodup_nil⟩
    | some dval =>
      simp only [hdist]
      have dp := build_parent_tree_facts g hwf s t
      have hdval : dval = hopDist g s t := (dp.dist_hop t dval hdist).1
      rw [backtrack_eq_take_stream]
      simp only [List.nil_append, Nat.sub_zero, List.length_nil]
      refine ⟨?_, ?_, ?_⟩
      · simp [List.length_take]
      · intro p hp
        have hp' : p ∈ streamBacktrack (build_parent_tree g s t).2 s (FUEL g) t [t] :=
          (List.take_sublist _ _).subset hp
        obtain ⟨w, hew, hwl⟩ := stream_elem_shape dp (FUEL g) t [t] dval hdist p hp'
        rw [hew]
        simp [hwl, hdval]
      · exact (stream_nodup dp (FUEL g) t [t] dval hdist).sublist (List.take_sublist _ _)

/-- Witness for claim C2 (amended) on the 3×3 grid. -/
theorem claim_C2_witness :
    WF grid3 ∧ 1 ≤ 5 ∧
      ((find_all_shortest_paths_optimized grid3 0 8 5).length ≤ 5 ∧
        (∀ p ∈ find_all_shortest_paths_optimized grid3 0 8 5,
          p.length = hopDist grid3 0 8 + 1) ∧
        (find_all_shortest_paths_optimized grid3 0 8 5).Nodup) :=
  ⟨by decide, by decide, claim_C2_amended grid3 (by decide) 0 8 5 (by decide)⟩

/-! ## Claim C5 — the node-processing limit -/

/-- The final `nodes_processed` counter is at least the counter of any
intermediate state. -/
theorem bfsLoop_count_mono (g : Graph) (goal : Nat) (mn : Option Nat) (md : Option ℚ)
    (fa : Bool) (rf : Nat) :
    ∀ fuel q vis par proc sl alt out P,
      bfsLoop g goal mn md fa rf fuel q vis par proc sl alt = some (out, P) → proc ≤ P := by
  intro fuel
  induction fuel with
  | zero =>
    intro q vis par proc sl alt out P h
    cases q with
    | nil =>
      cases sl with
      | some len => rw [bfsLoop] at h; cases h; exact le_refl _
      | none => rw [bfsLoop] at h; cases h; exact le_refl _
    | cons a as => cases h
  | succ fuel ih =>
    intro q vis par proc sl alt out P h
    cases q with
    | nil =>
      cases sl with
      | some len => rw [bfsLoop] at h; cases h; exact le_refl _
      | none => rw [bfsLoop] at h; cases h; exact le_refl _
    | cons cur qrest =>
      rw [bfsLoop] at h
      by_cases hlim : validate_node_limit (proc + 1) mn = true
      · rw [if_pos hlim] at h; cases h; omega
      · rw [if_neg hlim] at h
        cases hstep : bfsStep g goal md fa rf cur (g.adj cur) qrest vis par sl alt with
        | inl r0 => rw [hstep] at h; cases h; omega
        | inr st =>
          rw [hstep] at h
          obtain ⟨q', vis', par', sl', alt'⟩ := st
          have := ih q' vis' par' (proc + 1) sl' alt' out P h
          omega

/-- The neighbor pass only appends to the visited set. -/
theorem bfsStep_vis_mono (g : Graph) (goal : Nat) (md : Option ℚ) (fa : Bool) (rf cur : Nat) :
    ∀ ns q vis par sl alt,
      (∀ q' vis' par' sl' alt',
        bfsStep g goal md fa rf cur ns q vis par sl alt = Sum.inr (q', vis', par', sl', alt') →
        ∃ ext, vis' = vis ++ ext) := by
  intro ns
  induction ns with
  | nil =>
    intro q vis par sl alt q' vis' par' sl' alt' h
    rw [bfsStep] at h
    cases h
    exact ⟨[], by simp⟩
  | cons nb rest ih =>
    intro q vis par sl alt q' vis' par' sl' alt' h
    rw [bfsStep] at h
    by_cases hmem : nb ∈ vis
    · rw [if_pos hmem] at h
      exact ih q vis par sl alt q' vis' par' sl' alt' h
    · rw [if_neg hmem] at h
      by_cases hgoal : nb = goal
      · rw [if_pos hgoal] at h
        cases sl with
        | none =>
          simp only at h
          split at h
          · cases h
          · split at h
            · cases h
            · obtain ⟨ext, hext⟩ := ih _ _ _ _ _ _ _ _ _ _ h
              exact ⟨[nb] ++ ext, by rw [hext, List.append_assoc]⟩
        | some len =>
          simp only at h
          split at h
          · split at h
            · obtain ⟨ext, hext⟩ := ih _ _ _ _ _ _ _ _ _ _ h
              exact ⟨[nb] ++ ext, by rw [hext, List.append_assoc]⟩
            · split at h
              · cases h
              · obtain ⟨ext, hext⟩ := ih _ _ _ _ _ _ _ _ _ _ h
                exact ⟨[nb] ++ ext, by rw [hext, List.append_assoc]⟩
          · split at h
            · cases h
            · obtain ⟨ext, hext⟩ := ih _ _ _ _ _ _ _ _ _ _ h
              exact ⟨[nb] ++ ext, by rw [hext, List.append_assoc]⟩
      · rw [if_neg hgoal] at h
        obtain ⟨ext, hext⟩ := ih _ _ _ _ _ _ _ _ _ _ h
        exact ⟨[nb] ++ ext, by rw [hext, List.append_assoc]⟩

/-- Simulation between the unlimited and the node-limited BFS loop from any
common state whose counter has not yet exceeded the limit: if the unlimited
run finishes within the limit the limited run is identical, and otherwise
the limited run aborts with no path and its (non-empty) partial visited
set. -/
theorem bfsLoop_limit_sim (g : Graph) (goal : Nat) (m : Nat) (hm : 0 < m) (md : Option ℚ)
    (fa : Bool) (rf : Nat) :
    ∀ fuel q vis par proc sl alt out P,
      bfsLoop g goal none md fa rf fuel q vis par proc sl alt = some (out, P) →
      proc ≤ m → vis ≠ [] →
      (P ≤ m →
        bfsLoop g goal (some m) md fa rf fuel q vis par proc sl alt = some (out, P)) ∧
      (m < P →
        ∃ vis2, bfsLoop g goal (some m) md fa rf fuel q vis par proc sl alt =
          some ((none, vis2, none), m + 1) ∧ vis2 ≠ []) := by
  intro fuel
  induction fuel with
  | zero =>
    intro q vis par proc sl alt out P h hproc hvis
    cases q with
    | nil =>
      cases sl with
      | some len =>
        rw [bfsLoop] at h ⊢
        cases h
        exact ⟨fun _ => rfl, fun hc => absurd hc (by omega)⟩
      | none =>
        rw [bfsLoop] at h ⊢
        cases h
        exact ⟨fun _ => rfl, fun hc => absurd hc (by omega)⟩
    | cons a as => cases h
  | succ fuel ih =>
    intro q vis par proc sl alt out P h hproc hvis
    cases q with
    | nil =>
      cases sl with
      | some len =>
        rw [bfsLoop] at h ⊢
        cases h
        exact ⟨fun _ => rfl, fun hc => absurd hc (by omega)⟩
      | none =>
        rw [bfsLoop] at h ⊢
        cases h
        exact ⟨fun _ => rfl, fun hc => absurd hc (by omega)⟩
    | cons cur qrest =>
      rw [bfsLoop] at h ⊢
      rw [show validate_node_limit (proc + 1) none = false from rfl, if_neg (by simp)] at h
      by_cases hpm : proc = m
      · -- the limited run aborts right now
        have hlim : validate_node_limit (proc + 1) (some m) = true := by
          unfold validate_node_limit
          subst hpm
          simp [hm]
        rw [if_pos hlim]
        have hP : m < P := by
          cases hstep : bfsStep g goal md fa rf cur (g.adj cur) qrest vis par sl alt with
          | inl r0 => rw [hstep] at h; cases h; omega
          | inr st =>
            rw [hstep] at h
            obtain ⟨q', vis', par', sl', alt'⟩ := st
            have := bfsLoop_count_mono g goal none md fa rf fuel q' vis' par' (proc + 1)
              sl' alt' out P h
            omega
        subst hpm
        exact ⟨fun hc => absurd hc (by omega), fun _ => ⟨vis, rfl, hvis⟩⟩
      · have hlim : validate_node_limit (proc + 1) (some m) = false := by
          unfold validate_node_limit
          have : ¬ m < proc + 1 := by omega
          simp [this]
        rw [hlim]
        rw [if_neg (by simp)]
        cases hstep : bfsStep g goal md fa rf cur (g.adj cur) qrest vis par sl alt with
        | inl r0 =>
          rw [hstep] at h
          have h' : some (r0, proc + 1) = some (out, P) := h
          cases h'
          exact ⟨fun _ => rfl, fun hc => absurd hc (by omega)⟩
        | inr st =>
          obtain ⟨q', vis', par', sl', alt'⟩ := st
          rw [hstep] at h
          have h' : bfsLoop g goal none md fa rf fuel q' vis' par' (proc + 1) sl' alt' =
              some (out, P) := h
          obtain ⟨ext, hext⟩ :=
            bfsStep_vis_mono g goal md fa rf cur (g.adj cur) qrest vis par sl alt
              q' vis' par' sl' alt' hstep
          have hvis' : vis' ≠ [] := by
            rw [hext]
            intro hc
            exact hvis (List.append_eq_nil.mp hc).1
          exact ih q' vis' par' (proc + 1) sl' alt' out P h' (by omega) hvis'

/-- Claim C5: with defaults elsewhere and a positive node limit `m`: if the
(instrumented) unconstrained BFS run needs more than `m` dequeues to return,
the limited call returns no path together with a non-empty partial visited
set; and if the unconstrained run returns within at most `m` dequeues, the
limited call returns the identical result — in particular a path whenever
one was found. -/
theorem claim_C5 (g : Graph) (s t m : Nat) (hm : 0 < m) (out : BfsResult) (P : Nat)
    (hrun : bfsRun g s t none none false = some (out, P)) :
    (m < P → ∃ vis, bfs_shortest_path g s t (some m) none false = (none, vis, none) ∧
      vis ≠ []) ∧
    (P ≤ m → bfs_shortest_path g s t (some m) none false = out) := by
  unfold bfsRun at hrun
  unfold bfs_shortest_path bfsRun
  by_cases hst : s = t
  · rw [if_pos hst] at hrun ⊢
    cases hrun
    exact ⟨fun hc => absurd hc (by omega), fun _ => rfl⟩
  · rw [if_neg hst] at hrun ⊢
    have := bfsLoop_limit_sim g t m hm none false (FUEL g) (FUEL g) [s] [s]
      (fun x => if x = s then some none else none) 0 none none out P hrun
      (by omega) (by simp)
    constructor
    · intro hP
      obtain ⟨vis2, heq, hne⟩ := this.2 hP
      rw [heq]
      exact ⟨vis2, rfl, hne⟩
    · intro hP
      rw [this.1 hP]
      rfl

/-- Witness for claim C5: on the path graph `0 — 1 — 2`, the unconstrained
search needs 2 dequeues, so the limit `m = 1` aborts it. -/
theorem claim_C5_witness :
    0 < 1 ∧ bfsRun lineG 0 2 none none false = some ((some [0, 1, 2], [0, 1, 2], none), 2) ∧
      ((1 < 2 → ∃ vis, bfs_shortest_path lineG 0 2 (some 1) none false = (none, vis, none) ∧
        vis ≠ []) ∧
       (2 ≤ 1 → bfs_shortest_path lineG 0 2 (some 1) none false =
         (some [0, 1, 2], [0, 1, 2], none))) :=
  ⟨by decide, by decide,
    claim_C5 lineG 0 2 1 (by decide) (some [0, 1, 2], [0, 1, 2], none) 2 (by decide)⟩

/-! ## Claim C4 — the distance limit fails closed -/

/-- With `find_alternative = False` and no length found yet, the neighbor
pass returns a path only when the distance check on that very path did not
fire, and any continued state still has no recorded length. -/
theorem bfsStep_dist_fa_false (g : Graph) (goal : Nat) (D : ℚ) (rf cur : Nat) :
    ∀ ns q vis par alt,
      (∀ pth vis2 a2,
        bfsStep g goal (some D) false rf cur ns q vis par none alt =
          Sum.inl (some pth, vis2, a2) →
        a2 = none ∧
          (decide (D ≠ 0) && decide ((D : ℝ) < calculate_path_distance g pth)) = false) ∧
      (∀ q' vis' par' sl' alt',
        bfsStep g goal (some D) false rf cur ns q vis par none alt =
          Sum.inr (q', vis', par', sl', alt') → sl' = none) := by
  intro ns
  induction ns with
  | nil =>
    intro q vis par alt
    constructor
    · intro pth vis2 a2 h
      rw [bfsStep] at h
      cases h
    · intro q' vis' par' sl' alt' h
      rw [bfsStep] at h
      cases h
      rfl
  | cons nb rest ih =>
    intro q vis par alt
    rw [bfsStep]
    by_cases hmem : nb ∈ vis
    · rw [if_pos hmem]
      exact ih q vis par alt
    · rw [if_neg hmem]
      by_cases hgoal : nb = goal
      · rw [if_pos hgoal]
        simp only
        by_cases hb : (decide (D ≠ 0) && decide ((D : ℝ) <
            calculate_path_distance g (reconstructPath rf
              (fun x => if x = nb then some (some cur) else par x) nb))) = true
        · rw [if_pos hb]
          constructor
          · intro pth vis2 a2 h
            cases h
          · intro q' vis' par' sl' alt' h
            cases h
        · rw [if_neg hb]
          rw [if_pos (by simp)]
          constructor
          · intro pth vis2 a2 h
            injection h with h1
            injection h1 with h2 h3
            injection h3 with h4 h5
            refine ⟨h5.symm, ?_⟩
            have hpe : pth = reconstructPath rf
                (fun x => if x = nb then some (some cur) else par x) nb := by
              injection h2 with h6
              exact h6.symm
            rw [hpe]
            simpa using hb
          · intro q' vis' par' sl' alt' h
            cases h
      · rw [if_neg hgoal]
        exact ih _ _ _ alt

/-- With `find_alternative = False`, whenever the distance-limited BFS loop
returns a path, that path passed the distance check. -/
theorem bfsLoop_dist_le (g : Graph) (goal : Nat) (D : ℚ) (mn : Option Nat) (rf : Nat) :
    ∀ fuel q vis par proc alt p vis2 a2 P,
      bfsLoop g goal mn (some D) false rf fuel q vis par proc none alt =
        some ((some p, vis2, a2), P) →
      (decide (D ≠ 0) && decide ((D : ℝ) < calculate_path_distance g p)) = false := by
  intro fuel
  induction fuel with
  | zero =>
    intro q vis par proc alt p vis2 a2 P h
    cases q with
    | nil => rw [bfsLoop] at h; cases h
    | cons a as => cases h
  | succ fuel ih =>
    intro q vis par proc alt p vis2 a2 P h
    cases q with
    | nil => rw [bfsLoop] at h; cases h
    | cons cur qrest =>
      rw [bfsLoop] at h
      by_cases hlim : validate_node_limit (proc + 1) mn = true
      · rw [if_pos hlim] at h
        cases h
      · rw [if_neg hlim] at h
        obtain ⟨hinl, hinr⟩ := bfsStep_dist_fa_false g goal D rf cur (g.adj cur) qrest vis par alt
        cases hstep : bfsStep g goal (some D) false rf cur (g.adj cur) qrest vis par none alt with
        | inl r0 =>
          rw [hstep] at h
          have h' : some (r0, proc + 1) = some ((some p, vis2, a2), P) := h
          cases h'
          exact (hinl p vis2 a2 hstep).2
        | inr st =>
          obtain ⟨q', vis', par', sl', alt'⟩ := st
          rw [hstep] at h
          have hsl' : sl' = none := hinr q' vis' par' sl' alt' hstep
          subst hsl'
          exact ih q' vis' par' (proc + 1) alt' p vis2 a2 P h

/-- The unconstrained and the distance-limited neighbor passes agree until
the first goal discovery, where the limited pass either returns the same
path (check passed) or fails closed with the same visited set. -/
theorem bfsStep_md_sim (g : Graph) (goal : Nat) (D : ℚ) (rf cur : Nat) :
    ∀ ns q vis par alt,
      (∀ st, bfsStep g goal none false rf cur ns q vis par none alt = Sum.inr st →
        st.2.2.2.1 = none ∧
          bfsStep g goal (some D) false rf cur ns q vis par none alt = Sum.inr st) ∧
      (∀ pth vis2 a2,
        bfsStep g goal none false rf cur ns q vis par none alt = Sum.inl (pth, vis2, a2) →
        ∃ pp, pth = some pp ∧ a2 = none ∧
          ((decide (D ≠ 0) && decide ((D : ℝ) < calculate_path_distance g pp)) = true →
            bfsStep g goal (some D) false rf cur ns q vis par none alt =
              Sum.inl (none, vis2, none)) ∧
          ((decide (D ≠ 0) && decide ((D : ℝ) < calculate_path_distance g pp)) = false →
            bfsStep g goal (some D) false rf cur ns q vis par none alt =
              Sum.inl (some pp, vis2, none))) := by
  intro ns
  induction ns with
  | nil =>
    intro q vis par alt
    constructor
    · intro st h
      rw [bfsStep] at h
      rw [bfsStep]
      cases h
      exact ⟨rfl, rfl⟩
    · intro pth vis2 a2 h
      rw [bfsStep] at h
      cases h
  | cons nb rest ih =>
    intro q vis par alt
    rw [bfsStep]
    rw [bfsStep]
    by_cases hmem : nb ∈ vis
    · rw [if_pos hmem]
      rw [if_pos hmem]
      exact ih q vis par alt
    · rw [if_neg hmem]
      rw [if_neg hmem]
      by_cases hgoal : nb = goal
      · rw [if_pos hgoal]
        rw [if_pos hgoal]
        simp only
        rw [if_neg (by simp)]
        rw [if_pos (by simp)]
        constructor
        · intro st h
          simp at h
        · intro pth vis2 a2 h
          injection h with h1
          injection h1 with h2 h3
          injection h3 with h4 h5
          refine ⟨reconstructPath rf (fun x => if x = nb then some (some cur) else par x) nb,
            h2.symm, h5.symm, ?_, ?_⟩
          · intro hb
            rw [if_pos hb, h4]
          · intro hb
            rw [if_neg (by rw [hb]; simp), if_pos (by simp), h4]
      · rw [if_neg hgoal]
        rw [if_neg hgoal]
        exact ih _ _ _ alt

/-- Loop-level fail-closed simulation: if the unconstrained run returns a
path whose calculated distance trips a (truthy) limit `D`, the limited run
returns no path together with the same visited set. -/
theorem bfsLoop_md_sim (g : Graph) (goal : Nat) (D : ℚ) (mn : Option Nat) (rf : Nat) :
    ∀ fuel q vis par proc alt p vis2 a2 P,
      bfsLoop g goal mn none false rf fuel q vis par proc none alt =
        some ((some p, vis2, a2), P) →
      (decide (D ≠ 0) && decide ((D : ℝ) < calculate_path_distance g p)) = true →
      bfsLoop g goal mn (some D) false rf fuel q vis par proc none alt =
        some ((none, vis2, none), P) := by
  intro fuel
  induction fuel with
  | zero =>
    intro q vis par proc alt p vis2 a2 P h hb
    cases q with
    | nil => rw [bfsLoop] at h; cases h
    | cons a as => cases h
  | succ fuel ih =>
    intro q vis par proc alt p vis2 a2 P h hb
    cases q with
    | nil => rw [bfsLoop] at h; cases h
    | cons cur qrest =>
      rw [bfsLoop] at h ⊢
      by_cases hlim : validate_node_limit (proc + 1) mn = true
      · rw [if_pos hlim] at h
        cases h
      · rw [if_neg hlim] at h ⊢
        obtain ⟨hinr, hinl⟩ := bfsStep_md_sim g goal D rf cur (g.adj cur) qrest vis par alt
        cases hstep : bfsStep g goal none false rf cur (g.adj cur) qrest vis par none alt with
        | inl r0 =>
          rw [hstep] at h
          have h' : some (r0, proc + 1) = some ((some p, vis2, a2), P) := h
          cases h'
          obtain ⟨pp, hpp, ha2, htrue, -⟩ := hinl (some p) vis2 a2 hstep
          have hppe : pp = p := by injection hpp.symm
          subst hppe
          rw [htrue hb]
        | inr st =>
          rw [hstep] at h
          obtain ⟨hsl', heq⟩ := hinr st hstep
          rw [heq]
          obtain ⟨q', vis', par', sl', alt'⟩ := st
          simp only at hsl' h ⊢
          subst hsl'
          exact ih q' vis' par' (proc + 1) alt' p vis2 a2 P h hb

/-- Claim C4 as amended (a limit of exactly 0 is Python-falsy and disables
the check, so the limit must be positive): for every graph, start, goal and
positive distance limit `D`: (i) if the distance-limited BFS returns a path,
that path's calculated distance is at most `D`; (ii) if the unconstrained
BFS returns a path whose calculated distance exceeds `D`, the limited call
returns no path (fail closed) together with the same visited set, even
though an unconstrained path exists. -/
theorem claim_C4_amended (g : Graph) (s t : Nat) (mn : Option Nat) (D : ℚ) (hD : 0 < D) :
    (∀ p vis alt, bfs_shortest_path g s t mn (some D) false = (some p, vis, alt) →
      calculate_path_distance g p ≤ (D : ℝ)) ∧
    (∀ p vis alt, bfs_shortest_path g s t mn none false = (some p, vis, alt) →
      (D : ℝ) < calculate_path_distance g p →
      bfs_shortest_path g s t mn (some D) false = (none, vis, none)) := by
  have hDne : D ≠ 0 := ne_of_gt hD
  constructor
  · intro p vis alt h
    unfold bfs_shortest_path bfsRun at h
    by_cases hst : s = t
    · rw [if_pos hst] at h
      have h' : ((some [s] : Option (List Nat)), ([s] : List Nat),
          (none : Option (List Nat))) = (some p, vis, alt) := h
      injection h' with h1 h2
      injection h1 with h3
      rw [← h3]
      rw [show calculate_path_distance g [s] = 0 from rfl]
      positivity
    · rw [if_neg hst] at h
      cases hrun : bfsLoop g t mn (some D) false (FUEL g) (FUEL g) [s] [s]
          (fun x => if x = s then some none else none) 0 none none with
      | none =>
        rw [hrun] at h
        cases h
      | some rc =>
        obtain ⟨⟨r1, vis1, a1⟩, P⟩ := rc
        rw [hrun] at h
        have h' : ((r1, vis1, a1) : BfsResult) = (some p, vis, alt) := h
        injection h' with j1 j2
        injection j2 with j3 j4
        have hb := bfsLoop_dist_le g t D mn (FUEL g) (FUEL g) [s] [s]
          (fun x => if x = s then some none else none) 0 none p vis1 a1 P
          (by rw [hrun, j1])
        rw [Bool.and_eq_false_iff] at hb
        rcases hb with hb | hb
        · exact absurd hDne (by simpa using hb)
        · have : ¬ ((D : ℝ) < calculate_path_distance g p) := by simpa using hb
          linarith [not_lt.mp this]
  · intro p vis alt h hgt
    unfold bfs_shortest_path bfsRun at h ⊢
    by_cases hst : s = t
    · rw [if_pos hst] at h
      have h' : ((some [s] : Option (List Nat)), ([s] : List Nat),
          (none : Option (List Nat))) = (some p, vis, alt) := h
      injection h' with h1 h2
      injection h1 with h3
      rw [← h3] at hgt
      rw [show calculate_path_distance g [s] = 0 from rfl] at hgt
      have : (0 : ℝ) < (D : ℝ) := by exact_mod_cast hD
      linarith
    · rw [if_neg hst] at h ⊢
      cases hrun : bfsLoop g t mn none false (FUEL g) (FUEL g) [s] [s]
          (fun x => if x = s then some none else none) 0 none none with
      | none =>
        rw [hrun] at h
        cases h
      | some rc =>
        obtain ⟨⟨r1, vis1, a1⟩, P⟩ := rc
        rw [hrun] at h
        have h' : ((r1, vis1, a1) : BfsResult) = (some p, vis, alt) := h
        have hr1 : r1 = some p := by injection h' with j1
        have hv1 : vis1 = vis := by
          injection h' with j1 j2
          injection j2 with j3
        have hb : (decide (D ≠ 0) && decide ((D : ℝ) < calculate_path_distance g p)) = true := by
          simp [hDne, hgt]
        have := bfsLoop_md_sim g t D mn (FUEL g) (FUEL g) [s] [s]
          (fun x => if x = s then some none else none) 0 none p vis1 a1 P
          (by rw [hrun, hr1]) hb
        rw [this, hv1]
        rfl

/-- Witness for claim C4 (amended) at `D = 200` on the two-node graph. -/
theorem claim_C4_witness :
    (0 : ℚ) < 200 ∧
      ((∀ p vis alt, bfs_shortest_path twoNode 0 1 none (some 200) false = (some p, vis, alt) →
        calculate_path_distance twoNode p ≤ ((200 : ℚ) : ℝ)) ∧
       (∀ p vis alt, bfs_shortest_path twoNode 0 1 none none false = (some p, vis, alt) →
        ((200 : ℚ) : ℝ) < calculate_path_distance twoNode p →
        bfs_shortest_path twoNode 0 1 none (some 200) false = (none, vis, none))) :=
  ⟨by norm_num, claim_C4_amended twoNode 0 1 none 200 (by norm_num)⟩

/-! ## Claim C1 — BFS returns a hop-minimal path.
Machinery: parent chains of the `parent` dictionary, hop-graded paths, and
the termination measure of the search loop. -/

/-- A goal-to-start walk through the `parent` dictionary: each node maps to
its successor in the list, and the final node is the one stored with parent
`None` (the start). -/
inductive RevChain (par : Nat → Option (Option Nat)) : List Nat → Prop
  | single (x : Nat) : par x = some none → RevChain par [x]
  | cons (x y : Nat) (rest : List Nat) : par x = some (some y) →
      RevChain par (y :: rest) → RevChain par (x :: y :: rest)

theorem revChain_ne_nil {par : Nat → Option (Option Nat)} {L : List Nat}
    (h : RevChain par L) : L ≠ [] := by
  cases h <;> simp

/-- A parent map extension that leaves the chain's nodes untouched preserves
the chain. -/
theorem revChain_stable {par par' : Nat → Option (Option Nat)} {L : List Nat}
    (h : RevChain par L) (hagree : ∀ x ∈ L, par' x = par x) : RevChain par' L := by
  induction h with
  | single x hx =>
    exact RevChain.single x ((hagree x (List.mem_singleton.mpr rfl)).trans hx)
  | cons x y rest hx hchain ih =>
    refine RevChain.cons x y rest ((hagree x (List.mem_cons_self _ _)).trans hx) ?_
    exact ih fun z hz => hagree z (List.mem_cons_of_mem _ hz)

/-- `_reconstruct_path`'s inner loop run on a recorded parent chain returns
exactly that chain, for any sufficient fuel. -/
theorem reconRev_of_revChain {par : Nat → Option (Option Nat)} :
    ∀ {L : List Nat}, RevChain par L →
      ∀ v rest, L = v :: rest → ∀ f, L.length ≤ f → ∀ acc, reconRev par f v acc = acc ++ L := by
  intro L h
  induction h with
  | single x hx =>
    intro v rest heq f hf acc
    injection heq with h1 h2
    subst h1
    cases f with
    | zero => simp at hf
    | succ f =>
      rw [reconRev, hx]
  | cons x y rest hx hchain ih =>
    intro v rest' heq f hf acc
    injection heq with h1 h2
    subst h1
    cases f with
    | zero => simp at hf
    | succ f =>
      rw [reconRev, hx]
      show reconRev par f y (acc ++ [x]) = acc ++ x :: y :: rest
      rw [ih y rest rfl f (by simp at hf ⊢; omega) (acc ++ [x])]
      rw [List.append_assoc]
      rfl

theorem reconstructPath_of_revChain {par : Nat → Option (Option Nat)} {L : List Nat}
    (h : RevChain par L) {v : Nat} (hv : L.head? = some v) {f : Nat} (hf : L.length ≤ f) :
    reconstructPath f par v = L.reverse := by
  obtain ⟨w, rest, heq⟩ : ∃ w rest, L = w :: rest := by
    cases L with
    | nil => simp at hv
    | cons a as => exact ⟨a, as, rfl⟩
  have hwv : w = v := by rw [heq] at hv; simpa using hv
  subst hwv
  unfold reconstructPath
  rw [reconRev_of_revChain h w rest heq f hf []]
  rw [List.nil_append]

/-- A path whose `i`-th node sits at hop distance exactly `i` from the
start. -/
def Graded (g : Graph) (s : Nat) (P : List Nat) : Prop :=
  ∀ i (h : i < P.length), hopDist g s (P.get ⟨i, h⟩) = i

theorem graded_nodup {g : Graph} {s : Nat} {P : List Nat} (h : Graded g s P) : P.Nodup := by
  rw [List.nodup_iff_injective_get]
  intro i j hij
  have hi : hopDist g s (P.get i) = i.1 := h i.1 i.2
  have hj : hopDist g s (P.get j) = j.1 := h j.1 j.2
  rw [hij] at hi
  exact Fin.ext (hi.symm.trans hj)

theorem graded_length {g : Graph} {s v : Nat} {P : List Nat} (hg : Graded g s P)
    (hp : P.getLast? = some v) : P.length = hopDist g s v + 1 := by
  have hne : P ≠ [] := by intro hc; rw [hc] at hp; simp at hp
  have hlenpos : 0 < P.length := List.length_pos.mpr hne
  have hvget : P.get ⟨P.length - 1, by omega⟩ = v := by
    rw [List.getLast?_eq_getLast_of_ne_nil hne] at hp
    have := List.getLast_eq_getElem P hne
    injection hp with hp2
    rw [← hp2, this]
    simp [List.get_eq_getElem]
  have := hg (P.length - 1) (by omega)
  rw [hvget] at this
  omega

theorem graded_snoc {g : Graph} {s v : Nat} {P : List Nat} (hg : Graded g s P)
    (hv : hopDist g s v = P.length) : Graded g s (P ++ [v]) := by
  intro i h
  simp only [List.length_append, List.length_singleton] at h
  by_cases hi : i < P.length
  · have : (P ++ [v]).get ⟨i, by simp; omega⟩ = P.get ⟨i, hi⟩ := by
      simp only [List.get_eq_getElem]
      exact (List.getElem_append_left' [v] hi).symm
    rw [this]
    exact hg i hi
  · have hieq : i = P.length := by omega
    have : (P ++ [v]).get ⟨i, by simp; omega⟩ = v := by
      simp [List.get_eq_getElem]
      rw [List.getElem_concat_length _ _ _ hieq]
    rw [this, hv, hieq]

/-- The termination measure of the search loop: queue length plus number of
unvisited graph nodes.  Every iteration decreases it by exactly one. -/
def searchMu (g : Graph) (q vis : List Nat) : Nat :=
  q.length + (g.nodes.filter (fun x => decide (x ∉ vis))).length

theorem filter_not_mem_snoc (nodes : List Nat) (vis : List Nat) (nb : Nat)
    (hnd : nodes.Nodup) (hin : nb ∈ nodes) (hnot : nb ∉ vis) :
    (nodes.filter (fun x => decide (x ∉ vis ++ [nb]))).length + 1 =
      (nodes.filter (fun x => decide (x ∉ vis))).length := by
  induction nodes with
  | nil => simp at hin
  | cons a rest ih =>
    rw [List.filter_cons, List.filter_cons]
    by_cases hanb : a = nb
    · subst hanb
      have h1 : (decide (a ∉ vis ++ [a])) = false := by simp
      have h2 : (decide (a ∉ vis)) = true := by simpa using hnot
      rw [h1, h2, if_neg (by simp), if_pos rfl]
      simp only [List.length_cons]
      have hnbrest : a ∉ rest := (List.nodup_cons.mp hnd).1
      have : rest.filter (fun x => decide (x ∉ vis ++ [a])) =
          rest.filter (fun x => decide (x ∉ vis)) := by
        apply List.filter_congr
        intro x hx
        have hxa : x ≠ a := fun hc => hnbrest (hc ▸ hx)
        simp [hxa]
      rw [this]
    · have hrest : nb ∈ rest := by
        rcases List.mem_cons.mp hin with h | h
        · exact absurd h.symm hanb
        · exact h
      have hnd' : rest.Nodup := (List.nodup_cons.mp hnd).2
      by_cases hmem : a ∈ vis
      · have h1 : (decide (a ∉ vis ++ [nb])) = false := by simp [hmem]
        have h2 : (decide (a ∉ vis)) = false := by simpa using hmem
        rw [h1, h2, if_neg (by simp), if_neg (by simp)]
        exact ih hnd' hrest
      · have h1 : (decide (a ∉ vis ++ [nb])) = true := by simp [hmem, hanb]
        have h2 : (decide (a ∉ vis)) = true := by simpa using hmem
        rw [h1, h2, if_pos rfl, if_pos rfl]
        simp only [List.length_cons]
        have := ih hnd' hrest
        omega

/-- Appending a batch of fresh graph nodes to both the queue and the visited
set keeps the measure unchanged (each addition pays for itself). -/
theorem searchMu_extend (g : Graph) (hnodes : g.nodes.Nodup) :
    ∀ (added qrest vis : List Nat),
      (∀ x ∈ added, x ∈ g.nodes) → (vis ++ added).Nodup →
      searchMu g (qrest ++ added) (vis ++ added) = searchMu g qrest vis := by
  intro added
  induction added with
  | nil => intro qrest vis _ _; simp
  | cons a rest ih =>
    intro qrest vis hin hnd
    have ha_nodes : a ∈ g.nodes := hin a (List.mem_cons_self _ _)
    have ha_vis : a ∉ vis := by
      intro hc
      have : ¬ (vis ++ a :: rest).Nodup := by
        intro hnd2
        rw [List.nodup_append] at hnd2
        exact hnd2.2.2 hc (List.mem_cons_self _ _)
      exact this hnd
    have hstep : (vis ++ [a]) ++ rest = vis ++ a :: rest := by
      rw [List.append_assoc]; rfl
    have h1 : searchMu g ((qrest ++ [a]) ++ rest) ((vis ++ [a]) ++ rest) =
        searchMu g (qrest ++ [a]) (vis ++ [a]) := by
      refine ih (qrest ++ [a]) (vis ++ [a]) (fun x hx => hin x (List.mem_cons_of_mem _ hx)) ?_
      rw [hstep]
      exact hnd
    have h2 : searchMu g (qrest ++ [a]) (vis ++ [a]) = searchMu g qrest vis := by
      unfold searchMu
      have := filter_not_mem_snoc g.nodes vis a hnodes ha_nodes ha_vis
      simp only [List.length_append, List.length_singleton]
      omega
    calc searchMu g (qrest ++ a :: rest) (vis ++ a :: rest)
        = searchMu g ((qrest ++ [a]) ++ rest) ((vis ++ [a]) ++ rest) := by
          rw [List.append_assoc, List.append_assoc]; rfl
      _ = searchMu g qrest vis := by rw [h1, h2]

theorem nodup_subset_length_le {L nodes : List Nat} (hL : L.Nodup) (hnodes : nodes.Nodup)
    (hsub : ∀ x ∈ L, x ∈ nodes) : L.length ≤ nodes.length := by
  have h1 : L.toFinset.card = L.length := List.toFinset_card_of_nodup hL
  have h2 : nodes.toFinset.card = nodes.length := List.toFinset_card_of_nodup hnodes
  have h3 : L.toFinset ⊆ nodes.toFinset := by
    intro x hx
    rw [List.mem_toFinset] at hx ⊢
    exact hsub x hx
  have := Finset.card_le_card h3
  omega

/-- The loop invariant of `bfs_shortest_path`'s search (run with
`find_alternative = False`, before the goal is found): duplicate-free
visited set of graph nodes containing the start but not the goal, a
duplicate-free queue of visited nodes, and for every visited node a parent
chain in the dictionary that reconstructs to a hop-graded path from the
start. -/
structure SInv (g : Graph) (s t : Nat) (q vis : List Nat)
    (par : Nat → Option (Option Nat)) : Prop where
  vis_nodup : vis.Nodup
  vis_nodes : ∀ v ∈ vis, v ∈ g.nodes
  s_vis : s ∈ vis
  t_nvis : t ∉ vis
  q_vis : ∀ x ∈ q, x ∈ vis
  q_nodup : q.Nodup
  chain : ∀ v ∈ vis, ∃ L, RevChain par L ∧ L.head? = some v ∧ (∀ x ∈ L, x ∈ vis) ∧
    PathOk g s v L.reverse ∧ Graded g s L.reverse

/-- One neighbor pass of the search loop: either the goal is discovered and
the reconstructed path is a hop-graded (hence hop-minimal) path to the
goal, or the distance limit fails the discovery closed (only possible when
a limit was supplied), or the pass completes with the invariant restored,
the popped node fully expanded, and queue and visited set extended by the
same batch of next-layer nodes. -/
theorem bfsStep_search (g : Graph) (hwf : WF g) (s t cur : Nat) (qrest : List Nat)
    (htb : TwoBlocks g s (cur :: qrest)) (md : Option ℚ) (alt : Option (List Nat)) :
    ∀ ns done new vis par,
      g.adj cur = done ++ ns →
      (∀ w ∈ done, w ∈ vis) →
      cur ∈ vis →
      cur ∉ qrest ++ new →
      (∀ x ∈ new, hopDist g s x = hopDist g s cur + 1) →
      SInv g s t (qrest ++ new) vis par →
      Expanded g vis (cur :: (qrest ++ new)) →
      (∃ p vis2, bfsStep g t md false (FUEL g) cur ns (qrest ++ new) vis par none alt =
          Sum.inl (some p, vis2, none) ∧
          PathOk g s t p ∧ p.length = hopDist g s t + 1) ∨
      (∃ vis2 limit, md = some limit ∧
        bfsStep g t md false (FUEL g) cur ns (qrest ++ new) vis par none alt =
          Sum.inl (none, vis2, none)) ∨
      (∃ added par2 q2 vis2,
        bfsStep g t md false (FUEL g) cur ns (qrest ++ new) vis par none alt =
          Sum.inr (q2, vis2, par2, none, alt) ∧
        q2 = qrest ++ (new ++ added) ∧ vis2 = vis ++ added ∧
        (∀ x ∈ new ++ added, hopDist g s x = hopDist g s cur + 1) ∧
        SInv g s t q2 vis2 par2 ∧ Expanded g vis2 q2) := by
  intro ns
  induction ns with
  | nil =>
    intro done new vis par hadj hdone hcur hcurq hnew sinv hexp
    refine Or.inr (Or.inr ⟨[], par, qrest ++ new, vis, ?_, by simp, by simp, by simpa using hnew,
      sinv, ?_⟩)
    · rw [bfsStep]
    · intro v hv hvq w hw
      by_cases hvc : v = cur
      · subst hvc
        apply hdone
        rw [hadj, List.append_nil] at hw
        exact hw
      · exact hexp v hv (by simp [hvq, hvc]) w hw
  | cons nb rest ih =>
    intro done new vis par hadj hdone hcur hcurq hnew sinv hexp
    have hnbadj : nb ∈ g.adj cur := by rw [hadj]; simp
    have hadj2 : g.adj cur = (done ++ [nb]) ++ rest := by
      rw [hadj, List.append_assoc, List.singleton_append]
    rw [bfsStep]
    by_cases hmem : nb ∈ vis
    · rw [if_pos hmem]
      exact ih (done ++ [nb]) new vis par hadj2
        (by
          intro w hw
          rcases List.mem_append.mp hw with h | h
          · exact hdone w h
          · rw [List.mem_singleton.mp h]; exact hmem)
        hcur hcurq hnew sinv hexp
    · rw [if_neg hmem]
      -- discover nb: common facts
      have hnb_nodes : nb ∈ g.nodes := hwf.adj_mem_nodes hnbadj
      obtain ⟨Lc, hLc_chain, hLc_head, hLc_vis, hLc_path, hLc_graded⟩ := sinv.chain cur hcur
      have hreach_cur : Reachable g s cur := ⟨Lc.reverse, hLc_path⟩
      have hreach_nb : Reachable g s nb := reachable_step hreach_cur hnbadj
      have hople : hopDist g s nb ≤ hopDist g s cur + 1 := hopDist_succ_le hreach_cur hnbadj
      have hopge : hopDist g s cur + 1 ≤ hopDist g s nb := by
        obtain ⟨p, hp, hlen⟩ := hopDist_spec hreach_nb
        obtain ⟨u, huF, huvis, hub⟩ := frontier_bound hexp sinv.s_vis hmem hp
        have hucur : hopDist g s cur ≤ hopDist g s u := by
          rcases List.mem_cons.mp huF with h | h
          · rw [h]
          · rcases List.mem_append.mp h with hq | hn
            · exact (twoBlocks_head_le htb u hq).1
            · rw [hnew u hn]; omega
        omega
      have hopnb : hopDist g s nb = hopDist g s cur + 1 := le_antisymm hople hopge
      set vis' := vis ++ [nb] with hvis'
      set par' := fun x => if x = nb then some (some cur) else par x with hpar'
      have hmem_vis' : ∀ x, x ∈ vis' ↔ x ∈ vis ∨ x = nb := by
        intro x; simp [hvis']
      have hcur_ne_nb : cur ≠ nb := fun h => hmem (h ▸ hcur)
      -- the extended parent chain for nb
      obtain ⟨c0, Lt, hLc_eq⟩ : ∃ c0 Lt, Lc = c0 :: Lt := by
        cases Lc with
        | nil => simp at hLc_head
        | cons a as => exact ⟨a, as, rfl⟩
      have hc0 : c0 = cur := by rw [hLc_eq] at hLc_head; simpa using hLc_head
      have hchain_nb : RevChain par' (nb :: Lc) := by
        rw [hLc_eq, hc0]
        refine RevChain.cons nb cur Lt (by simp [hpar']) ?_
        rw [← hc0, ← hLc_eq]
        refine revChain_stable hLc_chain ?_
        intro x hx
        have : x ≠ nb := fun hc => hmem (hc ▸ hLc_vis x hx)
        simp [hpar', this]
      have hpath_nb : PathOk g s nb (nb :: Lc).reverse := by
        rw [List.reverse_cons]
        refine pathOk_snoc ?_ hnbadj
        exact hLc_path
      have hgraded_nb : Graded g s (nb :: Lc).reverse := by
        rw [List.reverse_cons]
        refine graded_snoc hLc_graded ?_
        rw [hopnb]
        have := graded_length hLc_graded (by
          rw [List.getLast?_reverse]
          exact hLc_head)
        simp only [List.length_reverse] at this ⊢
        omega
      have hLnb_vis' : ∀ x ∈ nb :: Lc, x ∈ vis' := by
        intro x hx
        rcases List.mem_cons.mp hx with h | h
        · exact (hmem_vis' x).mpr (Or.inr h)
        · exact (hmem_vis' x).mpr (Or.inl (hLc_vis x h))
      have hLnb_len : (nb :: Lc).length ≤ FUEL g := by
        have hnd : (nb :: Lc).Nodup := by
          rw [← List.nodup_reverse]
          exact graded_nodup hgraded_nb
        have hsub : ∀ x ∈ nb :: Lc, x ∈ g.nodes := by
          intro x hx
          rcases (hmem_vis' x).mp (hLnb_vis' x hx) with h | h
          · exact sinv.vis_nodes x h
          · rw [h]; exact hnb_nodes
        have := nodup_subset_length_le hnd hwf.1 hsub
        unfold FUEL
        omega
      have hrecon : reconstructPath (FUEL g) par' nb = (nb :: Lc).reverse :=
        reconstructPath_of_revChain hchain_nb (by simp) hLnb_len
      by_cases hgoal : nb = t
      · rw [if_pos hgoal]
        simp only
        have hfin1 : PathOk g s t (reconstructPath (FUEL g)
            (fun x => if x = nb then some (some cur) else par x) nb) := by
          rw [show (fun x => if x = nb then some (some cur) else par x) = par' from rfl]
          rw [hrecon, ← hgoal]
          exact hpath_nb
        have hfin2 : (reconstructPath (FUEL g)
            (fun x => if x = nb then some (some cur) else par x) nb).length =
            hopDist g s t + 1 := by
          rw [show (fun x => if x = nb then some (some cur) else par x) = par' from rfl]
          rw [hrecon, ← hgoal]
          exact graded_length hgraded_nb (by
            rw [List.reverse_cons, List.getLast?_concat])
        cases md with
        | none =>
          rw [if_neg (by simp)]
          rw [if_pos (by simp)]
          exact Or.inl ⟨reconstructPath (FUEL g)
            (fun x => if x = nb then some (some cur) else par x) nb, vis ++ [nb],
            rfl, hfin1, hfin2⟩
        | some limit =>
          by_cases hb : (decide (limit ≠ 0) &&
              decide ((limit : ℝ) < calculate_path_distance g
                (reconstructPath (FUEL g)
                  (fun x => if x = nb then some (some cur) else par x) nb))) = true
          · rw [if_pos hb]
            exact Or.inr (Or.inl ⟨vis ++ [nb], limit, rfl, rfl⟩)
          · rw [if_neg hb]
            rw [if_pos (by simp)]
            exact Or.inl ⟨reconstructPath (FUEL g)
              (fun x => if x = nb then some (some cur) else par x) nb, vis ++ [nb],
              rfl, hfin1, hfin2⟩
      · rw [if_neg hgoal]
        have sinv' : SInv g s t ((qrest ++ new) ++ [nb]) vis' par' :=
          { vis_nodup := by
              rw [hvis', List.nodup_append]
              refine ⟨sinv.vis_nodup, List.nodup_singleton _, ?_⟩
              intro x hx hx2
              exact hmem ((List.mem_singleton.mp hx2) ▸ hx)
            vis_nodes := by
              intro v hv
              rcases (hmem_vis' v).mp hv with h | h
              · exact sinv.vis_nodes v h
              · rw [h]; exact hnb_nodes
            s_vis := (hmem_vis' s).mpr (Or.inl sinv.s_vis)
            t_nvis := by
              intro hc
              rcases (hmem_vis' t).mp hc with h | h
              · exact sinv.t_nvis h
              · exact hgoal h.symm
            q_vis := by
              intro x hx
              rcases List.mem_append.mp hx with h | h
              · exact (hmem_vis' x).mpr (Or.inl (sinv.q_vis x h))
              · exact (hmem_vis' x).mpr (Or.inr (List.mem_singleton.mp h))
            q_nodup := by
              rw [List.nodup_append]
              refine ⟨sinv.q_nodup, List.nodup_singleton _, ?_⟩
              intro x hx hx2
              exact hmem ((List.mem_singleton.mp hx2) ▸ sinv.q_vis x hx)
            chain := by
              intro v hv
              rcases (hmem_vis' v).mp hv with h | h
              · obtain ⟨L, hL1, hL2, hL3, hL4, hL5⟩ := sinv.chain v h
                refine ⟨L, ?_, hL2, fun x hx => (hmem_vis' x).mpr (Or.inl (hL3 x hx)),
                  hL4, hL5⟩
                refine revChain_stable hL1 ?_
                intro x hx
                have : x ≠ nb := fun hc => hmem (hc ▸ hL3 x hx)
                simp [hpar', this]
              · rw [h]
                exact ⟨nb :: Lc, hchain_nb, by simp, hLnb_vis', hpath_nb, hgraded_nb⟩ }
        have hexp' : Expanded g vis' (cur :: ((qrest ++ new) ++ [nb])) := by
          intro v hv hvF w hw
          have hvnb : v ≠ nb := by
            intro hc
            exact hvF (by
              rw [hc]
              exact List.mem_cons_of_mem _
                (List.mem_append_right _ (List.mem_singleton.mpr rfl)))
          rcases (hmem_vis' v).mp hv with hh | hh
          · refine (hmem_vis' w).mpr (Or.inl ?_)
            refine hexp v hh ?_ w hw
            intro hc
            rcases List.mem_cons.mp hc with hc2 | hc2
            · exact hvF (hc2 ▸ List.mem_cons_self _ _)
            · exact hvF (List.mem_cons_of_mem _ (List.mem_append_left _ hc2))
          · exact absurd hh hvnb
        have := ih (done ++ [nb]) (new ++ [nb]) vis' par' hadj2
          (by
            intro w hw
            rcases List.mem_append.mp hw with h | h
            · exact (hmem_vis' w).mpr (Or.inl (hdone w h))
            · exact (hmem_vis' w).mpr (Or.inr (List.mem_singleton.mp h)))
          ((hmem_vis' cur).mpr (Or.inl hcur))
          (by
            intro hc
            rcases List.mem_append.mp hc with h | h
            · exact hcurq (List.mem_append_left _ h)
            · rcases List.mem_append.mp h with h2 | h2
              · exact hcurq (List.mem_append_right _ h2)
              · exact hcur_ne_nb (List.mem_singleton.mp h2))
          (by
            intro x hx
            rcases List.mem_append.mp hx with h | h
            · exact hnew x h
            · rw [List.mem_singleton.mp h, hopnb])
          (by rw [← List.append_assoc]; exact sinv')
          (by rw [← List.append_assoc]; exact hexp')
        rcases this with ⟨p, vis2, heq, hp1, hp2⟩ | ⟨vis2, limit, hmd, heq⟩ |
          ⟨added, par2, q2, vis2, heq, hq2, hvis2, hhop, hsinv2, hexp2⟩
        · rw [← List.append_assoc] at heq
          exact Or.inl ⟨p, vis2, heq, hp1, hp2⟩
        · rw [← List.append_assoc] at heq
          exact Or.inr (Or.inl ⟨vis2, limit, hmd, heq⟩)
        · rw [← List.append_assoc] at heq
          refine Or.inr (Or.inr ⟨[nb] ++ added, par2, q2, vis2, heq, ?_, ?_, ?_, hsinv2, hexp2⟩)
          · rw [hq2]
            simp
          · rw [hvis2, hvis']
            simp
          · intro x hx
            rcases List.mem_append.mp hx with h | h
            · exact hnew x h
            · rcases List.mem_append.mp h with h2 | h2
              · rw [List.mem_singleton.mp h2, hopnb]
              · have := hhop x (List.mem_append_right _ h2)
                exact this

/-- Soundness of the search loop: from any state satisfying the invariant,
whatever node and distance limits are in force, if the loop returns a
primary path then that path is a valid hop-minimal path from the start to
the goal. -/
theorem bfsLoop_sound (g : Graph) (hwf : WF g) (s t : Nat) (mn : Option Nat) (md : Option ℚ) :
    ∀ fuel q vis par proc alt p vis2 a2 P,
      SInv g s t q vis par → Expanded g vis q → TwoBlocks g s q →
      bfsLoop g t mn md false (FUEL g) fuel q vis par proc none alt =
        some ((some p, vis2, a2), P) →
      PathOk g s t p ∧ p.length = hopDist g s t + 1 := by
  intro fuel
  induction fuel with
  | zero =>
    intro q vis par proc alt p vis2 a2 P sinv hexp htb h
    cases q with
    | nil =>
      rw [bfsLoop] at h
      simp at h
    | cons cur qrest =>
      rw [bfsLoop] at h
      simp at h
  | succ fuel ih =>
    intro q vis par proc alt p vis2 a2 P sinv hexp htb h
    cases q with
    | nil =>
      rw [bfsLoop] at h
      simp at h
    | cons cur qrest =>
      rw [bfsLoop] at h
      by_cases hlim : validate_node_limit (proc + 1) mn = true
      · rw [if_pos hlim] at h
        simp at h
      · rw [if_neg hlim] at h
        have hcurvis : cur ∈ vis := sinv.q_vis cur (List.mem_cons_self _ _)
        have hcurq : cur ∉ qrest ++ ([] : List Nat) := by
          simpa using (List.nodup_cons.mp sinv.q_nodup).1
        have sinv0 : SInv g s t (qrest ++ []) vis par := by
          rw [List.append_nil]
          exact ⟨sinv.vis_nodup, sinv.vis_nodes, sinv.s_vis, sinv.t_nvis,
            fun x hx => sinv.q_vis x (List.mem_cons_of_mem _ hx),
            (List.nodup_cons.mp sinv.q_nodup).2, sinv.chain⟩
        have hexp0 : Expanded g vis (cur :: (qrest ++ [])) := by
          rw [List.append_nil]
          exact hexp
        have hdis := bfsStep_search g hwf s t cur qrest htb md alt (g.adj cur) [] [] vis par
          (List.nil_append _).symm (by simp) hcurvis hcurq (by simp) sinv0 hexp0
        simp only [List.append_nil, List.nil_append] at hdis
        rcases hdis with ⟨p0, vis0, heq, hp1, hp2⟩ | ⟨vis0, limit, hmd, heq⟩ |
          ⟨added, par2, q2, vis0, heq, hq2, hvis2, hhop, hsinv2, hexp2⟩
        · rw [heq] at h
          have h' : some (((some p0, vis0, none) : BfsResult), proc + 1) =
              some ((some p, vis2, a2), P) := h
          simp only [Option.some.injEq, Prod.mk.injEq] at h'
          obtain ⟨⟨hsp, _, _⟩, _⟩ := h'
          rw [← Option.some.injEq] at hsp
          have hpp : p0 = p := Option.some.injEq _ _ |>.mp hsp
          rw [← hpp]
          exact ⟨hp1, hp2⟩
        · rw [heq] at h
          have h' : some (((none, vis0, none) : BfsResult), proc + 1) =
              some ((some p, vis2, a2), P) := h
          simp at h'
        · rw [heq] at h
          have h' : bfsLoop g t mn md false (FUEL g) fuel q2 vis0 par2 (proc + 1) none alt =
              some ((some p, vis2, a2), P) := h
          have htb2 : TwoBlocks g s q2 := by
            rw [hq2]
            exact twoBlocks_step htb hhop
          exact ih q2 vis0 par2 (proc + 1) alt p vis2 a2 P hsinv2 hexp2 htb2 h'

/-- Completeness of the search loop, with no node or distance limit: from
any state satisfying the invariant, if the goal is reachable and the fuel
exceeds the termination measure, the loop returns a primary path. -/
theorem bfsLoop_complete (g : Graph) (hwf : WF g) (s t : Nat) :
    ∀ fuel q vis par proc alt,
      SInv g s t q vis par → Expanded g vis q → TwoBlocks g s q →
      Reachable g s t →
      searchMu g q vis < fuel →
      ∃ p vis2 P, bfsLoop g t none none false (FUEL g) fuel q vis par proc none alt =
        some ((some p, vis2, none), P) := by
  intro fuel
  induction fuel with
  | zero =>
    intro q vis par proc alt _ _ _ _ hmu
    exact absurd hmu (Nat.not_lt_zero _)
  | succ fuel ih =>
    intro q vis par proc alt sinv hexp htb hreach hmu
    cases q with
    | nil =>
      exfalso
      obtain ⟨pp, hpp⟩ := hreach
      obtain ⟨u, hu, _, _⟩ := frontier_bound hexp sinv.s_vis sinv.t_nvis hpp
      exact absurd hu (List.not_mem_nil u)
    | cons cur qrest =>
      rw [bfsLoop]
      rw [if_neg (by simp [validate_node_limit])]
      have hcurvis : cur ∈ vis := sinv.q_vis cur (List.mem_cons_self _ _)
      have hcurq : cur ∉ qrest ++ ([] : List Nat) := by
        simpa using (List.nodup_cons.mp sinv.q_nodup).1
      have sinv0 : SInv g s t (qrest ++ []) vis par := by
        rw [List.append_nil]
        exact ⟨sinv.vis_nodup, sinv.vis_nodes, sinv.s_vis, sinv.t_nvis,
          fun x hx => sinv.q_vis x (List.mem_cons_of_mem _ hx),
          (List.nodup_cons.mp sinv.q_nodup).2, sinv.chain⟩
      have hexp0 : Expanded g vis (cur :: (qrest ++ [])) := by
        rw [List.append_nil]
        exact hexp
      have hdis := bfsStep_search g hwf s t cur qrest htb none alt (g.adj cur) [] [] vis par
        (List.nil_append _).symm (by simp) hcurvis hcurq (by simp) sinv0 hexp0
      simp only [List.append_nil, List.nil_append] at hdis
      rcases hdis with ⟨p0, vis0, heq, hp1, hp2⟩ | ⟨vis0, limit, hmd, heq⟩ |
        ⟨added, par2, q2, vis0, heq, hq2, hvis2, hhop, hsinv2, hexp2⟩
      · rw [heq]
        exact ⟨p0, vis0, proc + 1, rfl⟩
      · exact absurd hmd (by simp)
      · rw [heq]
        have htb2 : TwoBlocks g s q2 := by
          rw [hq2]
          exact twoBlocks_step htb hhop
        have hsub : ∀ x ∈ added, x ∈ g.nodes := by
          intro x hx
          refine hsinv2.vis_nodes x ?_
          rw [hvis2]
          exact List.mem_append_right _ hx
        have hnodup : (vis ++ added).Nodup := hvis2 ▸ hsinv2.vis_nodup
        have e1 : searchMu g (qrest ++ added) (vis ++ added) = searchMu g qrest vis :=
          searchMu_extend g hwf.1 added qrest vis hsub hnodup
        have e2 : searchMu g (cur :: qrest) vis = searchMu g qrest vis + 1 := by
          simp only [searchMu, List.length_cons]
          omega
        have hmu2 : searchMu g q2 vis0 < fuel := by
          rw [hq2, hvis2, e1]
          omega
        obtain ⟨p, vis2, P, hrun⟩ := ih q2 vis0 par2 (proc + 1) alt hsinv2 hexp2 htb2 hreach hmu2
        exact ⟨p, vis2, P, hrun⟩

/-- C1: for every well-formed graph, start node in the graph, and goal
reachable from the start, `bfs_shortest_path` run without limits returns a
primary path, and whenever it returns a primary path (under any node or
distance limits that did not abort the search), that path is a valid path
from start to goal of minimal hop count among all paths in the graph. -/
theorem claim_C1 (g : Graph) (hwf : WF g) (s t : Nat) (hs : s ∈ g.nodes)
    (hreach : Reachable g s t) :
    (∃ p vis, bfs_shortest_path g s t none none false = (some p, vis, none)) ∧
    (∀ mn md p vis alt,
      bfs_shortest_path g s t mn md false = (some p, vis, alt) →
      PathOk g s t p ∧ ∀ q, PathOk g s t q → p.length ≤ q.length) := by
  by_cases hst : s = t
  · subst hst
    constructor
    · refine ⟨[s], [s], ?_⟩
      unfold bfs_shortest_path bfsRun
      rw [if_pos rfl]
      rfl
    · intro mn md p vis alt h
      unfold bfs_shortest_path bfsRun at h
      rw [if_pos rfl] at h
      have h' : ((some [s], [s], none) : BfsResult) = (some p, vis, alt) := h
      simp only [Prod.mk.injEq, Option.some.injEq] at h'
      obtain ⟨hp, _, _⟩ := h'
      constructor
      · rw [← hp]
        exact pathOk_single g s
      · intro q hq
        rw [← hp]
        simpa using pathOk_length_pos hq
  · have sinv0 : SInv g s t [s] [s] (fun x => if x = s then some none else none) := by
      refine ⟨List.nodup_singleton s, ?_, List.mem_singleton.mpr rfl, ?_, ?_,
        List.nodup_singleton s, ?_⟩
      · intro v hv
        rw [List.mem_singleton.mp hv]
        exact hs
      · intro hc
        exact hst ((List.mem_singleton.mp hc).symm)
      · intro x hx
        exact hx
      · intro v hv
        have hvs := List.mem_singleton.mp hv
        subst hvs
        refine ⟨[v], RevChain.single v (by simp), rfl, ?_, ?_, ?_⟩
        · intro x hx
          exact hx
        · simpa using pathOk_single g v
        · intro i hi
          have hi1 : i = 0 := by simpa using hi
          subst hi1
          simpa using hopDist_self g v
    have hexp0 : Expanded g [s] [s] := by
      intro v hv hvq
      exact absurd hv hvq
    have htb0 : TwoBlocks g s [s] := twoBlocks_singleton g s s
    constructor
    · have hmu : searchMu g [s] [s] < FUEL g := by
        have hflt : (g.nodes.filter (fun x => decide (x ∉ [s]))).length < g.nodes.length :=
          List.length_filter_lt_length_iff_exists.mpr ⟨s, hs, by simp⟩
        simp only [searchMu, FUEL, List.length_singleton]
        omega
      obtain ⟨p, vis2, P, hrun⟩ := bfsLoop_complete g hwf s t (FUEL g) [s] [s]
        (fun x => if x = s then some none else none) 0 none sinv0 hexp0 htb0 hreach hmu
      refine ⟨p, vis2, ?_⟩
      unfold bfs_shortest_path bfsRun
      rw [if_neg hst, hrun]
      rfl
    · intro mn md p vis alt h
      unfold bfs_shortest_path bfsRun at h
      rw [if_neg hst] at h
      cases hrun : bfsLoop g t mn md false (FUEL g) (FUEL g) [s] [s]
          (fun x => if x = s then some none else none) 0 none none with
      | none =>
        rw [hrun] at h
        have h' : ((none, [], none) : BfsResult) = (some p, vis, alt) := h
        simp at h'
      | some rp =>
        obtain ⟨⟨r1, vis1, a1⟩, P⟩ := rp
        rw [hrun] at h
        have h' : ((r1, vis1, a1) : BfsResult) = (some p, vis, alt) := h
        simp only [Prod.mk.injEq] at h'
        obtain ⟨hr1, _, _⟩ := h'
        subst hr1
        have hsound := bfsLoop_sound g hwf s t mn md (FUEL g) [s] [s]
          (fun x => if x = s then some none else none) 0 none p vis1 a1 P
          sinv0 hexp0 htb0 hrun
        obtain ⟨hpok, hlen⟩ := hsound
        refine ⟨hpok, ?_⟩
        intro q hq
        rw [hlen]
        exact hopDist_le hq

/-- Witness: on the two-node graph with start 0 and goal 1 the hypotheses of
`claim_C1` hold concretely and the conclusion follows. -/
theorem claim_C1_witness :
    (∃ p vis, bfs_shortest_path twoNode 0 1 none none false = (some p, vis, none)) ∧
    (∀ mn md p vis alt,
      bfs_shortest_path twoNode 0 1 mn md false = (some p, vis, alt) →
      PathOk twoNode 0 1 p ∧ ∀ q, PathOk twoNode 0 1 q → p.length ≤ q.length) :=
  claim_C1 twoNode (by decide) 0 1 (by decide)
    ⟨[0, 1], rfl, rfl, List.chain'_pair.mpr (by decide)⟩

end BFSRepo
